import Mathlib

/-!
Verification of the CommandoBase indexed storage engine and query executor
(`crates/logic/src/lib.rs`) against its natural-language specification.

The development is a shallow embedding: byte strings (sled keys and values)
are `List Nat` with each element a byte, JSON documents are the mutual
inductive `JValue`, and the sled tree is an association list from keys to
payloads.  Every function is translated from the Rust source; deviations
forced by the embedding (no floating point, no real hash sets) are recorded
in the doc comment of the definition they concern.
-/

set_option autoImplicit false

namespace Commando

/-- Byte strings: sled keys and values.  Each element is one byte (0..255). -/
abbrev Bytes := List Nat

/-- Bytes of an ASCII string literal.  All literals used in this development
are ASCII, for which the UTF-8 bytes coincide with the code points. -/
def asciiBytes (s : String) : Bytes := s.data.map Char.toNat

/-- Byte-lexicographic strict order, as `Ord` on `&[u8]` / sled key order:
a proper prefix sorts before its extensions. -/
def bytesLt : Bytes → Bytes → Bool
  | [], [] => false
  | [], _ :: _ => true
  | _ :: _, [] => false
  | a :: as, b :: bs => if a < b then true else if b < a then false else bytesLt as bs

/-- Non-strict byte-lexicographic order. -/
def bytesLe (a b : Bytes) : Bool := bytesLt a b || a == b

/-- `a.starts_with(b)` on byte strings. -/
def startsWith : Bytes → Bytes → Bool
  | _, [] => true
  | [], _ :: _ => false
  | a :: as, b :: bs => a == b && startsWith as bs

/-- `str::split(sep)`: split at every separator; always returns at least one
(possibly empty) fragment. -/
def splitByte (sep : Nat) : Bytes → List Bytes
  | [] => [[]]
  | b :: rest =>
    let r := splitByte sep rest
    if b = sep then [] :: r
    else
      match r with
      | [] => [[b]]
      | g :: gs => (b :: g) :: gs

/-- Split at the first occurrence of `sep`, if any. -/
def breakByte (sep : Nat) : Bytes → Option (Bytes × Bytes)
  | [] => none
  | b :: rest =>
    if b = sep then some ([], rest)
    else
      match breakByte sep rest with
      | none => none
      | some (pre, post) => some (b :: pre, post)

/-- `str::splitn(n, sep)`: at most `n` fragments, the last one unsplit. -/
def splitNByte (sep : Nat) : Nat → Bytes → List Bytes
  | 0, _ => []
  | 1, l => [l]
  | n + 2, l =>
    match breakByte sep l with
    | none => [l]
    | some (pre, post) => pre :: splitNByte sep (n + 1) post

/-- The last `':'`-separated fragment of a key (`split(':').last()`; `split`
always yields at least one fragment, so the `None` arm of the source is
unreachable). -/
def lastFrag (l : Bytes) : Bytes := (splitByte 58 l).getLastD []

/-- One lowercase hex digit, as the `hex` crate emits. -/
def hexDigit (d : Nat) : Nat := if d < 10 then 48 + d else 87 + d

/-- `hex::encode`: two lowercase hex digits per byte. -/
def hexEncode : Bytes → Bytes
  | [] => []
  | b :: bs => hexDigit (b / 16) :: hexDigit (b % 16) :: hexEncode bs

/-- Value of one hex digit character (`hex::decode` accepts both cases). -/
def hexDigitVal (c : Nat) : Option Nat :=
  if 48 ≤ c ∧ c ≤ 57 then some (c - 48)
  else if 97 ≤ c ∧ c ≤ 102 then some (c - 87)
  else if 65 ≤ c ∧ c ≤ 70 then some (c - 55)
  else none

/-- `hex::decode`: fails on odd length or non-hex characters. -/
def hexDecode : Bytes → Option Bytes
  | [] => some []
  | [_] => none
  | c1 :: c2 :: cs => do
    let d1 ← hexDigitVal c1
    let d2 ← hexDigitVal c2
    let rest ← hexDecode cs
    pure ((16 * d1 + d2) :: rest)

/-- Decimal digits of a natural number, most significant first (fuelled;
`natDec` supplies enough fuel). -/
def natDecAux : Nat → Nat → Bytes
  | 0, _ => []
  | fuel + 1, n => if n = 0 then [] else natDecAux fuel (n / 10) ++ [48 + n % 10]

/-- Decimal ASCII representation of a natural number. -/
def natDec (n : Nat) : Bytes := if n = 0 then [48] else natDecAux (n + 1) n

/-- Decimal ASCII representation of an integer (`i64` Display). -/
def intDec (i : Int) : Bytes := if i < 0 then 45 :: natDec (-i).toNat else natDec i.toNat

/-- Big-endian base-256 digits of `n`, padded to width `w`. -/
def beBytes : Nat → Nat → Bytes
  | 0, _ => []
  | w + 1, n => n / 256 ^ w :: beBytes w (n % 256 ^ w)

/-- Value of big-endian base-256 digits. -/
def beVal : Bytes → Nat
  | [] => 0
  | b :: bs => b * 256 ^ bs.length + beVal bs

/-- UTF-8 continuation byte (`0x80..=0xBF`). -/
def contByte (b : Nat) : Bool := 128 ≤ b && b ≤ 191

/-- The UTF-8 validity check performed by `String::from_utf8`
(shortest-form encodings, no surrogates, max `U+10FFFF`). -/
def isValidUtf8 : Bytes → Bool
  | [] => true
  | b :: rest =>
    if b ≤ 127 then isValidUtf8 rest
    else if 194 ≤ b && b ≤ 223 then
      match rest with
      | c1 :: r => contByte c1 && isValidUtf8 r
      | _ => false
    else if b = 224 then
      match rest with
      | c1 :: c2 :: r => (160 ≤ c1 && c1 ≤ 191) && contByte c2 && isValidUtf8 r
      | _ => false
    else if 225 ≤ b && b ≤ 236 then
      match rest with
      | c1 :: c2 :: r => contByte c1 && contByte c2 && isValidUtf8 r
      | _ => false
    else if b = 237 then
      match rest with
      | c1 :: c2 :: r => (128 ≤ c1 && c1 ≤ 159) && contByte c2 && isValidUtf8 r
      | _ => false
    else if 238 ≤ b && b ≤ 239 then
      match rest with
      | c1 :: c2 :: r => contByte c1 && contByte c2 && isValidUtf8 r
      | _ => false
    else if b = 240 then
      match rest with
      | c1 :: c2 :: c3 :: r => (144 ≤ c1 && c1 ≤ 191) && contByte c2 && contByte c3 && isValidUtf8 r
      | _ => false
    else if 241 ≤ b && b ≤ 243 then
      match rest with
      | c1 :: c2 :: c3 :: r => contByte c1 && contByte c2 && contByte c3 && isValidUtf8 r
      | _ => false
    else if b = 244 then
      match rest with
      | c1 :: c2 :: c3 :: r => (128 ≤ c1 && c1 ≤ 143) && contByte c2 && contByte c3 && isValidUtf8 r
      | _ => false
    else false

/-- A `serde_json` number.  `int` is the `i64` arm (`as_i64` succeeds) and
`big` is the `u64` arm used for values above `i64::MAX`.  The `f64` arm of
`serde_json::Number` is not modelled: no claim of this development evaluates
the engine on floating-point numbers, and per-claim notes record where that
scopes a statement. -/
inductive JNum where
  | int (i : Int)
  | big (u : Nat)
  deriving DecidableEq

mutual
/-- `serde_json::Value`.  Strings are UTF-8 byte strings. -/
inductive JValue where
  | null
  | bool (b : Bool)
  | num (n : JNum)
  | str (s : Bytes)
  | arr (xs : JArr)
  | obj (fs : JObj)
  deriving DecidableEq
/-- A JSON array (`Vec<Value>`). -/
inductive JArr where
  | nil
  | cons (v : JValue) (tl : JArr)
  deriving DecidableEq
/-- A JSON object (`Map<String, Value>`; keys unique by construction in
parsed JSON, looked up first-match here). -/
inductive JObj where
  | nil
  | cons (k : Bytes) (v : JValue) (tl : JObj)
  deriving DecidableEq
end

/-- First value bound to `k` in an object (`Map::get`). -/
def JObj.find? : JObj → Bytes → Option JValue
  | .nil, _ => none
  | .cons k v tl, k2 => if k = k2 then some v else tl.find? k2

/-- `i`-th array element (`Vec::get`). -/
def JArr.get? : JArr → Nat → Option JValue
  | .nil, _ => none
  | .cons v _, 0 => some v
  | .cons _ tl, i + 1 => tl.get? i

/-- `Value::is_object`. -/
def JValue.isObj : JValue → Bool
  | .obj _ => true
  | _ => false

/-- `Value::is_array`. -/
def JValue.isArr : JValue → Bool
  | .arr _ => true
  | _ => false

/-- `Value::is_null`. -/
def JValue.isNull : JValue → Bool
  | .null => true
  | _ => false

/-- The numeric value of a `serde_json` number (exact). -/
def JNum.val : JNum → Int
  | .int i => i
  | .big u => u

/-- `encode_sorted_value`: 1-byte type tag plus order-relevant payload.
Tag `0x01` is `i64` big-endian two's complement, `0x02` is `u64` big-endian,
`0x04` is raw UTF-8, `0x05` is one boolean byte.  Tag `0x03` (`f64`) does not
arise because `JNum` has no float arm.  Non-scalar values are rejected. -/
def encode_sorted_value : JValue → Except Unit Bytes
  | .num (.int i) => .ok (1 :: beBytes 8 (i % (2 ^ 64 : Nat)).toNat)
  | .num (.big u) => .ok (2 :: beBytes 8 u)
  | .str s => .ok (4 :: s)
  | .bool b => .ok ([5, if b then 1 else 0])
  | _ => .error ()

/-- `decode_sorted_value`.  Tag `0x01` reads bytes `1..9` as big-endian
two's complement; tag `0x02` as big-endian `u64`, re-canonicalised the way
`serde_json::Number::from(u64)` behaves (`as_i64` succeeds iff the value fits);
tag `0x04` validates UTF-8; tag `0x05` reads one byte.  Tag `0x03` (`f64`) is
outside the model and is mapped to the error case (no theorem evaluates it). -/
def decode_sorted_value (encoded : Bytes) : Except Unit JValue :=
  match encoded with
  | [] => .error ()
  | t :: rest =>
    if t = 1 then
      if rest.length < 8 then .error ()
      else
        let v := beVal (rest.take 8)
        .ok (.num (.int (if v < 2 ^ 63 then (v : Int) else (v : Int) - 2 ^ 64)))
    else if t = 2 then
      if rest.length < 8 then .error ()
      else
        let u := beVal (rest.take 8)
        .ok (.num (if u < 2 ^ 63 then .int u else .big u))
    else if t = 4 then
      if isValidUtf8 rest then .ok (.str rest) else .error ()
    else if t = 5 then
      match rest with
      | [] => .error ()
      | b :: _ => .ok (.bool (b != 0))
    else .error ()

/-- Byte-lexicographic three-way comparison. -/
def bytesCmp : Bytes → Bytes → Ordering
  | [], [] => .eq
  | [], _ :: _ => .lt
  | _ :: _, [] => .gt
  | a :: as, b :: bs =>
    if a < b then .lt else if b < a then .gt else bytesCmp as bs

/-- `compare_values`.  Numbers compare by value (the source projects both to
`f64`, which agrees with the exact comparison on every integer of magnitude
at most `2^53`; all numbers handled by any theorem below are in that range);
strings compare byte-lexicographically (Rust `String` order); booleans as
`false < true`; `null = null`; everything else is incomparable. -/
def compare_values : JValue → JValue → Option Ordering
  | .num n1, .num n2 => some (compare n1.val n2.val)
  | .str s1, .str s2 => some (bytesCmp s1 s2)
  | .bool b1, .bool b2 => some (compare (if b1 then 1 else 0) (if b2 then (1 : Nat) else 0))
  | .null, .null => some .eq
  | _, _ => none

/-- One byte of `serde_json` string escaping. -/
def jsonEscapeByte (b : Nat) : Bytes :=
  if b = 34 then [92, 34]
  else if b = 92 then [92, 92]
  else if b = 8 then [92, 98]
  else if b = 9 then [92, 116]
  else if b = 10 then [92, 110]
  else if b = 12 then [92, 102]
  else if b = 13 then [92, 114]
  else if b < 32 then [92, 117, 48, 48, hexDigit (b / 16), hexDigit (b % 16)]
  else [b]

/-- `serde_json` string escaping. -/
def jsonEscape : Bytes → Bytes
  | [] => []
  | b :: bs => jsonEscapeByte b ++ jsonEscape bs

mutual
/-- `Value::to_string()`: compact JSON serialization. -/
def jsonText : JValue → Bytes
  | .null => asciiBytes ("null")
  | .bool true => asciiBytes ("true")
  | .bool false => asciiBytes ("false")
  | .num (.int i) => intDec i
  | .num (.big u) => natDec u
  | .str s => 34 :: jsonEscape s ++ [34]
  | .arr xs => 91 :: jsonTextArr xs ++ [93]
  | .obj fs => 123 :: jsonTextObj fs ++ [125]
/-- Serialization of array elements, comma separated. -/
def jsonTextArr : JArr → Bytes
  | .nil => []
  | .cons v .nil => jsonText v
  | .cons v (.cons v2 tl) => jsonText v ++ [44] ++ jsonTextArr (.cons v2 tl)
/-- Serialization of object fields, comma separated. -/
def jsonTextObj : JObj → Bytes
  | .nil => []
  | .cons k v .nil => 34 :: jsonEscape k ++ [34, 58] ++ jsonText v
  | .cons k v (.cons k2 v2 tl) =>
    34 :: jsonEscape k ++ [34, 58] ++ jsonText v ++ [44] ++ jsonTextObj (.cons k2 v2 tl)
end

/-- `str::trim_matches(c)`: strip every leading and trailing occurrence. -/
def trimMatches (c : Nat) (l : Bytes) : Bytes :=
  ((l.dropWhile (fun b => b == c)).reverse.dropWhile (fun b => b == c)).reverse

/-- `value.to_string().trim_matches('"')`, the value text used in
equality-index keys. -/
def valueText (v : JValue) : Bytes := trimMatches 34 (jsonText v)

/-! ### Key schema (§4.B): reserved prefixes and index-key composition. -/

/-- `GEO_SORTED_INDEX_PREFIX` (renamed: the token `prefix` cannot end a name
in this development). -/
def GEO_SORTED_INDEX_PFX : Bytes := asciiBytes ("__geo_sorted__")

/-- `FIELD_INDEX_PREFIX`. -/
def FIELD_INDEX_PFX : Bytes := asciiBytes ("__field_index__")

/-- `FIELD_SORTED_INDEX_PREFIX`. -/
def FIELD_SORTED_INDEX_PFX : Bytes := asciiBytes ("__field_sorted__")

/-- `GEOHASH_PRECISION`. -/
def GEOHASH_PRECISION : Nat := 9

/-- `__geo_sorted__<path>:<geohash>:<primary-key>`. -/
def get_geo_sorted_index_key (field_path geohash key : Bytes) : Bytes :=
  GEO_SORTED_INDEX_PFX ++ field_path ++ [58] ++ geohash ++ [58] ++ key

/-- `__geo_sorted__<path>:<geohash>:`. -/
def get_geo_sorted_index_pfx_for_hash (field_path geohash : Bytes) : Bytes :=
  GEO_SORTED_INDEX_PFX ++ field_path ++ [58] ++ geohash ++ [58]

/-- `__geo_sorted__<path>:`. -/
def get_geo_sorted_index_pfx_for_field (field_path : Bytes) : Bytes :=
  GEO_SORTED_INDEX_PFX ++ field_path ++ [58]

/-- `__field_index__<path>:<value-text>:<primary-key>`. -/
def get_field_index_key (field_path value key : Bytes) : Bytes :=
  FIELD_INDEX_PFX ++ field_path ++ [58] ++ value ++ [58] ++ key

/-- `__field_index__<path>:<value-text>:`. -/
def get_field_index_pfx (field_path value : Bytes) : Bytes :=
  FIELD_INDEX_PFX ++ field_path ++ [58] ++ value ++ [58]

/-- `__field_sorted__<path>:<hex(encoded)>:<primary-key>`. -/
def get_field_sorted_index_key (field_path : Bytes) (encoded : Bytes) (key : Bytes) : Bytes :=
  FIELD_SORTED_INDEX_PFX ++ field_path ++ [58] ++ hexEncode encoded ++ [58] ++ key

/-- `__field_sorted__<path>:`. -/
def get_field_sorted_index_pfx (field_path : Bytes) : Bytes :=
  FIELD_SORTED_INDEX_PFX ++ field_path ++ [58]

/-! ### Store model, configuration, errors. -/

/-- `DbError`, with the diagnostic message text dropped except for the
offending key that `TransactionOperationFailed` reports. -/
inductive DbErr where
  | serde
  | utf8
  | hexErr
  | geohash
  | notFound
  | invalidPath
  | invalidFieldIndexKey
  | astQueryError
  | missingData
  | invalidComparisonValue
  | importError
  | txOpFailed (key : Bytes)
  deriving DecidableEq

/-- The sled tree: an association list from byte keys to payloads, kept in
byte order (sled iterates keys byte-lexicographically).  `some v` is the
JSON serialization of `v` (the only non-empty payloads the engine writes);
`none` is the empty payload `vec![]` of index entries, which fails to parse
as JSON. -/
abbrev Store := List (Bytes × Option JValue)

/-- `tree.get(k)`: `none` when absent, `some payload` when present. -/
def storeGet (S : Store) (k : Bytes) : Option (Option JValue) :=
  match S with
  | [] => none
  | (k2, p) :: rest => if k = k2 then some p else storeGet rest k

/-- `tree.insert(k, p)`: replaces an existing entry, otherwise inserts at the
byte-ordered position. -/
def storeInsert : Store → Bytes → Option JValue → Store
  | [], k, p => [(k, p)]
  | (k2, p2) :: rest, k, p =>
    if k = k2 then (k, p) :: rest
    else if bytesLt k k2 then (k, p) :: (k2, p2) :: rest
    else (k2, p2) :: storeInsert rest k p

/-- `tree.remove(k)`. -/
def storeRemove (S : Store) (k : Bytes) : Store :=
  S.filter (fun e => !(e.1 == k))

/-- The keys of the store, in iteration order. -/
def storeKeys (S : Store) : List Bytes := S.map (fun e => e.1)

/-- `tree.scan_prefix(p)`. -/
def scanPfx (S : Store) (p : Bytes) : Store :=
  S.filter (fun e => startsWith e.1 p)

/-- `std::ops::Bound` on byte keys. -/
inductive RB where
  | inc (b : Bytes)
  | exc (b : Bytes)
  | unb

/-- Membership of a key in a `(lower, upper)` bound pair. -/
def boundsSat (lo hi : RB) (k : Bytes) : Bool :=
  (match lo with
   | .unb => true
   | .inc b => bytesLe b k
   | .exc b => bytesLt b k) &&
  (match hi with
   | .unb => true
   | .inc b => bytesLe k b
   | .exc b => bytesLt k b)

/-- `tree.range(bounds)`. -/
def rangeScan (S : Store) (lo hi : RB) : Store :=
  S.filter (fun e => boundsSat lo hi e.1)

/-- `DbConfig`.  The source `HashSet<String>` fields are lists queried by
membership only. -/
structure DbConfig where
  hash_indexed_fields : List Bytes
  sorted_indexed_fields : List Bytes
  geo_indexed_fields : List Bytes

/-! ### Exact fractions and the geohash module (§4.E).

Latitude/longitude are `f64` in the source.  They are modelled as exact
fractions (`Int` numerator over `Nat` denominator, unreduced), which agrees
with `f64` on every value a theorem below evaluates; geohash bisection is
exact rational arithmetic in both. -/

/-- An unreduced fraction `num / den` with `den` intended positive. -/
structure Frac where
  num : Int
  den : Nat
  deriving DecidableEq

/-- `a < b` on fractions (cross multiplication; denominators positive). -/
def fracLt (a b : Frac) : Bool := a.num * b.den < b.num * a.den

/-- `a ≤ b` on fractions. -/
def fracLe (a b : Frac) : Bool := a.num * b.den ≤ b.num * a.den

/-- Fraction addition. -/
def fracAdd (a b : Frac) : Frac := ⟨a.num * b.den + b.num * a.den, a.den * b.den⟩

/-- Fraction subtraction. -/
def fracSub (a b : Frac) : Frac := ⟨a.num * b.den - b.num * a.den, a.den * b.den⟩

/-- A bisection interval `[lo/den, hi/den]` of one geohash dimension. -/
structure GhIv where
  lo : Int
  hi : Int
  den : Nat
  deriving DecidableEq

/-- Is `p` at or above the midpoint of the interval (the bit decision of
geohash encoding)? -/
def ghAboveMid (p : Frac) (iv : GhIv) : Bool :=
  (iv.lo + iv.hi) * p.den ≤ p.num * (2 * iv.den)

/-- Halve an interval, keeping the upper half when `b` is true. -/
def ghHalf (iv : GhIv) (b : Bool) : GhIv :=
  if b then ⟨iv.lo + iv.hi, 2 * iv.hi, 2 * iv.den⟩ else ⟨2 * iv.lo, iv.lo + iv.hi, 2 * iv.den⟩

/-- The bit stream of geohash encoding: alternating longitude/latitude
bisection, starting with longitude. -/
def ghBits (x y : Frac) : Nat → Bool → GhIv → GhIv → List Bool
  | 0, _, _, _ => []
  | n + 1, true, lonIv, latIv =>
    let b := ghAboveMid x lonIv
    b :: ghBits x y n false (ghHalf lonIv b) latIv
  | n + 1, false, lonIv, latIv =>
    let b := ghAboveMid y latIv
    b :: ghBits x y n true lonIv (ghHalf latIv b)

/-- The geohash base-32 alphabet. -/
def b32Alphabet : Bytes := asciiBytes ("0123456789bcdefghjkmnpqrstuvwxyz")

/-- Value of a most-significant-first bit list. -/
def bitsVal : List Bool → Nat
  | [] => 0
  | b :: bs => (if b then 1 else 0) * 2 ^ bs.length + bitsVal bs

/-- The base-32 character for a 5-bit value. -/
def b32Char (n : Nat) : Nat := b32Alphabet.getD n 0

/-- Pack a bit stream into base-32 characters, 5 bits per character. -/
def bitsToHash : List Bool → Bytes
  | [] => []
  | b1 :: b2 :: b3 :: b4 :: b5 :: rest => b32Char (bitsVal [b1, b2, b3, b4, b5]) :: bitsToHash rest
  | l => [b32Char (bitsVal l)]

/-- `geohash::encode(Coord { x: lon, y: lat }, precision)`: rejects
coordinates outside `[-180, 180] × [-90, 90]`, then emits
`5 * precision` bisection bits. -/
def gh_encode (lon lat : Frac) (precision : Nat) : Except DbErr Bytes :=
  if fracLt lon ⟨-180, 1⟩ || fracLt ⟨180, 1⟩ lon || fracLt lat ⟨-90, 1⟩ || fracLt ⟨90, 1⟩ lat then
    .error .geohash
  else
    .ok (bitsToHash (ghBits lon lat (5 * precision) true ⟨-180, 180, 1⟩ ⟨-90, 90, 1⟩))

/-- Index of a byte in an alphabet. -/
def idxOf : Bytes → Nat → Option Nat
  | [], _ => none
  | a :: as, c => if a = c then some 0 else (idxOf as c).map (fun i => i + 1)

/-- The 5-bit value of a base-32 character (fails on invalid characters,
as `geohash` errors on an invalid hash). -/
def b32Val (c : Nat) : Option Nat := idxOf b32Alphabet c

/-- The `w` low bits of `n`, most significant first. -/
def natBits : Nat → Nat → List Bool
  | 0, _ => []
  | w + 1, n => decide (n / 2 ^ w % 2 = 1) :: natBits w n

/-- Replay a bit stream into the pair of bisection intervals it selects. -/
def ghFold : List Bool → Bool → GhIv → GhIv → GhIv × GhIv
  | [], _, lonIv, latIv => (lonIv, latIv)
  | b :: bs, true, lonIv, latIv => ghFold bs false (ghHalf lonIv b) latIv
  | b :: bs, false, lonIv, latIv => ghFold bs true lonIv (ghHalf latIv b)

/-- Decode a geohash to its cell's longitude/latitude intervals. -/
def ghDecodeIvs (h : Bytes) : Option (GhIv × GhIv) :=
  (h.mapM b32Val).map (fun vs => ghFold ((vs.map (natBits 5)).flatten) true ⟨-180, 180, 1⟩ ⟨-90, 90, 1⟩)

/-- Interval midpoint as a fraction. -/
def fracMid (iv : GhIv) : Frac := ⟨iv.lo + iv.hi, 2 * iv.den⟩

/-- Interval width as a fraction. -/
def fracWidth (iv : GhIv) : Frac := ⟨iv.hi - iv.lo, iv.den⟩

/-- `geohash::neighbors`: the 8 cells adjacent to `h`, in the order
`n, ne, e, se, s, sw, w, nw` in which the radius query consumes them.  The
crate walks base-32 adjacency tables; this model decodes the cell and
re-encodes the 8 adjacent cell centers, which coincides with the tables away
from the poles and the antimeridian (where the crate wraps).  No theorem
below depends on the values produced here: the C1 theorem holds for every
candidate cell list. -/
def gh_neighbors (h : Bytes) : Except DbErr (List Bytes) :=
  match ghDecodeIvs h with
  | none => .error .geohash
  | some (lonIv, latIv) =>
    let cx := fracMid lonIv
    let cy := fracMid latIv
    let w := fracWidth lonIv
    let ht := fracWidth latIv
    let n := h.length
    do
      let hN ← gh_encode cx (fracAdd cy ht) n
      let hNE ← gh_encode (fracAdd cx w) (fracAdd cy ht) n
      let hE ← gh_encode (fracAdd cx w) cy n
      let hSE ← gh_encode (fracAdd cx w) (fracSub cy ht) n
      let hS ← gh_encode cx (fracSub cy ht) n
      let hSW ← gh_encode (fracSub cx w) (fracSub cy ht) n
      let hW ← gh_encode (fracSub cx w) cy n
      let hNW ← gh_encode (fracSub cx w) (fracAdd cy ht) n
      .ok [hN, hNE, hE, hSE, hS, hSW, hW, hNW]

/-- `serde_json::from_value::<GeoPoint>`: an object with numeric `lat` and
`lon` fields (extra fields are tolerated by serde's default behaviour).
Returns `(lat, lon)`.  Fractional (`f64`) coordinates are outside the model;
all geo theorems below use integer coordinates. -/
def parseGeoPoint (v : JValue) : Option (Frac × Frac) :=
  match v with
  | .obj fs =>
    match fs.find? (asciiBytes ("lat")), fs.find? (asciiBytes ("lon")) with
    | some (.num a), some (.num b) => some (⟨a.val, 1⟩, ⟨b.val, 1⟩)
    | _, _ => none
  | _ => none

/-! ### Index maintenance and the write path (§4.C). -/

/-- One staged sled mutation.  Creation mutations insert the empty payload
(`vec![]`); removals delete the key. -/
inductive Mut where
  | ins (k : Bytes)
  | del (k : Bytes)
  deriving DecidableEq

/-- The key a mutation touches. -/
def Mut.key : Mut → Bytes
  | .ins k => k
  | .del k => k

/-- Apply one staged mutation. -/
def applyMut (S : Store) : Mut → Store
  | .ins k => storeInsert S k none
  | .del k => storeRemove S k

/-- Apply staged mutations in order (`apply_batch`).  The source applies
geospatial mutations directly on the transactional tree while batching the
field/sorted ones; within one phase all mutations are inserts of empty
payloads (creation) or all are removals (removal), and the geo keys live
under their own reserved prefix, so the final state is order-independent and
a single ordered list is faithful. -/
def applyMuts (S : Store) (ms : List Mut) : Store := ms.foldl applyMut S

/-- Path extension for an object field: `cur.field`, or `field` at the root. -/
def joinPath (cur fld : Bytes) : Bytes := if cur.isEmpty then fld else cur ++ [46] ++ fld

mutual
/-- `index_value_recursive`: the creation mutations derived from one value.
Objects recurse per field (checking geo-indexed paths first); arrays recurse
per element and additionally index primitive elements against the array's own
path; primitives emit equality/sorted entries for configured paths.  A sorted
encoding failure is skipped (`if let Ok`); a geohash encoding failure aborts. -/
def index_value_recursive (key cur : Bytes) (v : JValue) (cfg : DbConfig) : Except DbErr (List Mut) :=
  match v with
  | .obj fs => index_obj_fields key cur fs cfg
  | .arr xs => index_arr_elems key cur 0 xs cfg
  | prim =>
    let hm : List Mut :=
      if cfg.hash_indexed_fields.contains cur then
        [.ins (get_field_index_key cur (valueText prim) key)]
      else []
    let sm : List Mut :=
      if cfg.sorted_indexed_fields.contains cur then
        match encode_sorted_value prim with
        | .ok enc => [.ins (get_field_sorted_index_key cur enc key)]
        | .error _ => []
      else []
    .ok (hm ++ sm)
/-- Object arm of `index_value_recursive`. -/
def index_obj_fields (key cur : Bytes) (fs : JObj) (cfg : DbConfig) : Except DbErr (List Mut) :=
  match fs with
  | .nil => .ok []
  | .cons f fv tl => do
    let np := joinPath cur f
    let geo : List Mut ←
      if cfg.geo_indexed_fields.contains np then
        match parseGeoPoint fv with
        | some gp => do
          let h ← gh_encode gp.2 gp.1 GEOHASH_PRECISION
          pure [.ins (get_geo_sorted_index_key np h key)]
        | none => pure []
      else pure []
    let sub ← index_value_recursive key np fv cfg
    let rest ← index_obj_fields key cur tl cfg
    .ok (geo ++ sub ++ rest)
/-- Array arm of `index_value_recursive` (`i` is the element index). -/
def index_arr_elems (key cur : Bytes) (i : Nat) (xs : JArr) (cfg : DbConfig) : Except DbErr (List Mut) :=
  match xs with
  | .nil => .ok []
  | .cons e tl => do
    let ip := cur ++ [46] ++ natDec i
    let sub ← index_value_recursive key ip e cfg
    let hm : List Mut :=
      if cfg.hash_indexed_fields.contains cur && !(e.isObj || e.isArr) then
        [.ins (get_field_index_key cur (valueText e) key)]
      else []
    let sm : List Mut :=
      if cfg.sorted_indexed_fields.contains cur then
        match encode_sorted_value e with
        | .ok enc => [.ins (get_field_sorted_index_key cur enc key)]
        | .error _ => []
      else []
    let rest ← index_arr_elems key cur (i + 1) tl cfg
    .ok (sub ++ hm ++ sm ++ rest)
end

mutual
/-- `remove_indices_recursive`: the removal mutations for one value; the
exact mirror of `index_value_recursive` with removals instead of inserts. -/
def remove_indices_recursive (key cur : Bytes) (v : JValue) (cfg : DbConfig) : Except DbErr (List Mut) :=
  match v with
  | .obj fs => remove_obj_fields key cur fs cfg
  | .arr xs => remove_arr_elems key cur 0 xs cfg
  | prim =>
    let hm : List Mut :=
      if cfg.hash_indexed_fields.contains cur then
        [.del (get_field_index_key cur (valueText prim) key)]
      else []
    let sm : List Mut :=
      if cfg.sorted_indexed_fields.contains cur then
        match encode_sorted_value prim with
        | .ok enc => [.del (get_field_sorted_index_key cur enc key)]
        | .error _ => []
      else []
    .ok (hm ++ sm)
/-- Object arm of `remove_indices_recursive`. -/
def remove_obj_fields (key cur : Bytes) (fs : JObj) (cfg : DbConfig) : Except DbErr (List Mut) :=
  match fs with
  | .nil => .ok []
  | .cons f fv tl => do
    let np := joinPath cur f
    let geo : List Mut ←
      if cfg.geo_indexed_fields.contains np then
        match parseGeoPoint fv with
        | some gp => do
          let h ← gh_encode gp.2 gp.1 GEOHASH_PRECISION
          pure [.del (get_geo_sorted_index_key np h key)]
        | none => pure []
      else pure []
    let sub ← remove_indices_recursive key np fv cfg
    let rest ← remove_obj_fields key cur tl cfg
    .ok (geo ++ sub ++ rest)
/-- Array arm of `remove_indices_recursive`. -/
def remove_arr_elems (key cur : Bytes) (i : Nat) (xs : JArr) (cfg : DbConfig) : Except DbErr (List Mut) :=
  match xs with
  | .nil => .ok []
  | .cons e tl => do
    let ip := cur ++ [46] ++ natDec i
    let sub ← remove_indices_recursive key ip e cfg
    let hm : List Mut :=
      if cfg.hash_indexed_fields.contains cur && !(e.isObj || e.isArr) then
        [.del (get_field_index_key cur (valueText e) key)]
      else []
    let sm : List Mut :=
      if cfg.sorted_indexed_fields.contains cur then
        match encode_sorted_value e with
        | .ok enc => [.del (get_field_sorted_index_key cur enc key)]
        | .error _ => []
      else []
    let rest ← remove_arr_elems key cur (i + 1) tl cfg
    .ok (sub ++ hm ++ sm ++ rest)
end

/-- `set_key_internal`: read the old value, stage removals from it (a payload
that fails to parse as JSON is skipped), apply them, write the document, then
stage and apply creations.  Any error aborts the transaction: the caller's
store is unchanged whenever the result is an error. -/
def set_key_internal (S : Store) (key : Bytes) (v : JValue) (cfg : DbConfig) : Except DbErr Store := do
  let removal ←
    match storeGet S key with
    | some (some oldVal) => remove_indices_recursive key [] oldVal cfg
    | _ => pure ([] : List Mut)
  let S1 := applyMuts S removal
  let S2 := storeInsert S1 key (some v)
  let creation ← index_value_recursive key [] v cfg
  .ok (applyMuts S2 creation)

/-- `set_key`: `set_key_internal` inside one sled transaction (the
conflict-retry loop of the facade is invisible to this single-threaded
model). -/
def set_key (S : Store) (key : Bytes) (v : JValue) (cfg : DbConfig) : Except DbErr Store :=
  set_key_internal S key v cfg

/-- `batch_set`: sequential `set_key_internal` in one transaction; the first
failure aborts the batch naming the offending key. -/
def batch_set (S : Store) (items : List (Bytes × JValue)) (cfg : DbConfig) : Except DbErr Store :=
  match items with
  | [] => .ok S
  | (k, v) :: rest =>
    match set_key_internal S k v cfg with
    | .ok S' => batch_set S' rest cfg
    | .error _ => .error (.txOpFailed k)

/-- `delete_key_internal`: a no-op when the key is absent; otherwise stage
removals from the stored value (an unparseable payload is skipped), remove
the key, and apply the batch. -/
def delete_key_internal (S : Store) (key : Bytes) (cfg : DbConfig) : Except DbErr Store :=
  match storeGet S key with
  | none => .ok S
  | some pl => do
    let removal ←
      match pl with
      | some v => remove_indices_recursive key [] v cfg
      | none => pure ([] : List Mut)
    .ok (storeRemove (applyMuts S removal) key)

/-- `delete_key`: `delete_key_internal` in one transaction (the async flush
is durability only and is not modelled). -/
def delete_key (S : Store) (key : Bytes) (cfg : DbConfig) : Except DbErr Store :=
  delete_key_internal S key cfg

/-- One operation of `execute_transaction`. -/
inductive TxOp where
  | set (key : Bytes) (v : JValue)
  | del (key : Bytes)

/-- The key an operation addresses. -/
def TxOp.key : TxOp → Bytes
  | .set k _ => k
  | .del k => k

/-- One raw transaction step, before error wrapping. -/
def txStepRaw (S : Store) (cfg : DbConfig) : TxOp → Except DbErr Store
  | .set k v => set_key_internal S k v cfg
  | .del k => delete_key_internal S k cfg

/-- `execute_transaction`: sequential operations inside one sled transaction;
the first failing operation aborts the whole batch with
`TransactionOperationFailed` naming its key, and (by transaction atomicity)
an error result leaves the caller's store unchanged. -/
def execute_transaction (S : Store) (ops : List TxOp) (cfg : DbConfig) : Except DbErr Store :=
  match ops with
  | [] => .ok S
  | op :: rest =>
    match txStepRaw S cfg op with
    | .ok S' => execute_transaction S' rest cfg
    | .error _ => .error (.txOpFailed op.key)

/-- `get_key`. -/
def get_key (S : Store) (k : Bytes) : Except DbErr JValue :=
  match storeGet S k with
  | some (some v) => .ok v
  | some none => .error .serde
  | none => .error .notFound

/-- `import_data`, with the parsed pair list as input (the JSON-text parsing
of the export document is not modelled).  Each pair is applied with
`set_key`, each in its own transaction, so a failure keeps the effects of the
pairs already imported: the partial store is returned with the error. -/
def import_data (S : Store) (data : List (Bytes × JValue)) (cfg : DbConfig) : Store × Option DbErr :=
  match data with
  | [] => (S, none)
  | (k, v) :: rest =>
    match set_key S k v cfg with
    | .ok S' => import_data S' rest cfg
    | .error e => (S, some e)

/-- The atomic batch semantics of §7, as specified: apply the operations in
order; on the first failure, no operation takes effect (the caller's store
`S0` is returned) and the offending key is named.  Modelled from the spec for
the C7 refinement; `execute_transaction` above is the source translation. -/
def transaction_spec (S0 : Store) : Store → List TxOp → DbConfig → Store × Option Bytes
  | S, [], _ => (S, none)
  | S, op :: rest, cfg =>
    match txStepRaw S cfg op with
    | .ok S' => transaction_spec S0 S' rest cfg
    | .error _ => (S0, some op.key)

/-! ### Path traversal and the query executor (§4.F, §4.G). -/

/-- `str::parse::<usize>()`: optional leading `+`, at least one digit,
value below `2^64`. -/
def parseUsize (b : Bytes) : Option Nat :=
  let digits := match b with | 43 :: rest => rest | _ => b
  if digits.isEmpty then none
  else if digits.all (fun c => 48 ≤ c && c ≤ 57) then
    let v := digits.foldl (fun a c => a * 10 + (c - 48)) 0
    if v < 2 ^ 64 then some v else none
  else none

/-- The walk of `get_value_by_path` over the already-split path fragments. -/
def getValueByPathParts : JValue → List Bytes → Option JValue
  | v, [] => some v
  | .obj fs, p :: ps =>
    match fs.find? p with
    | some v2 => getValueByPathParts v2 ps
    | none => none
  | .arr xs, p :: ps =>
    match parseUsize p with
    | some i =>
      match xs.get? i with
      | some v2 => getValueByPathParts v2 ps
      | none => none
    | none => none
  | _, _ :: _ => none

/-- `get_value_by_path`: dotted-path descent (objects by field, arrays by
base-10 index). -/
def getValueByPath (v : JValue) (path : Bytes) : Option JValue :=
  getValueByPathParts v (splitByte 46 path)

/-- `fetch_keys_hash_index`: prefix-scan the equality index for
`(path, value-text)` and take the last `':'`-separated fragment of each hit
as the primary key.  `split(':').last()` never fails, so the error arm of the
source is unreachable.  The `HashSet` result is modelled as a deduplicated
list. -/
def fetch_keys_hash_index (S : Store) (field_path : Bytes) (v : JValue) : List Bytes :=
  ((scanPfx S (get_field_index_pfx field_path (valueText v))).map (fun e => lastFrag e.1)).dedup

/-- The sorted-index operator strings `">", "<", ">=", "<=", "!="`. -/
inductive SortedOp where
  | gt
  | lt
  | ge
  | le
  | ne
  deriving DecidableEq

/-- The comparison acceptance of each sorted operator. -/
def sortedOpMatches (op : SortedOp) (c : Option Ordering) : Bool :=
  match op with
  | .gt => c == some .gt
  | .lt => c == some .lt
  | .ge => c == some .gt || c == some .eq
  | .le => c == some .lt || c == some .eq
  | .ne => !(c == some .eq)

/-- `DataType` of the query AST.  `fetch_keys_sorted_index` receives and
ignores it (the `_expected_type` binder of the source). -/
inductive DataType where
  | string
  | number
  | bool
  deriving DecidableEq

/-- The per-entry processing of the `fetch_keys_sorted_index` scan loop:
split the key into at most four `':'`-fragments, require at least four,
require fragment 1 to equal the field path, hex-decode fragment 2, filter on
the query's leading tag byte, decode, compare in value space, and on a match
return fragment 3 as the primary key.  `none` is the `continue` of the
source. -/
def sortedEntryPk (field_path : Bytes) (op : SortedOp) (v : JValue) (tyByte : Option Nat) (k : Bytes) : Option Bytes :=
  let parts := splitNByte 58 4 k
  if parts.length < 4 then none
  else if parts.getD 1 [] ≠ field_path then none
  else
    match hexDecode (parts.getD 2 []) with
    | none => none
    | some stored =>
      let tagOk :=
        match tyByte with
        | some t => !stored.isEmpty && stored.headD 0 == t
        | none => true
      if !tagOk then none
      else
        match decode_sorted_value stored with
        | .error _ => none
        | .ok sv =>
          if sortedOpMatches op (compare_values sv v) then some (parts.getD 3 []) else none

/-- `fetch_keys_sorted_index`: encode the query value (an encoding failure
aborts the query), choose the range bounds per operator (`!=` prefix-scans
instead), scan, and process every hit with `sortedEntryPk`. -/
def fetch_keys_sorted_index (S : Store) (field_path : Bytes) (op : SortedOp) (v : JValue) (_expected_type : DataType) : Except DbErr (List Bytes) :=
  match encode_sorted_value v with
  | .error _ => .error .serde
  | .ok enc =>
    let tyByte := enc.head?
    let pfxB := get_field_sorted_index_pfx field_path
    let startKey := get_field_sorted_index_key field_path enc []
    let endLte := get_field_sorted_index_key field_path enc [239, 191, 191]
    let entries :=
      match op with
      | .ne => scanPfx S pfxB
      | .gt => rangeScan S (.exc startKey) .unb
      | .ge => rangeScan S (.inc startKey) .unb
      | .lt => rangeScan S (.inc pfxB) (.exc startKey)
      | .le => rangeScan S (.inc pfxB) (.inc endLte)
    .ok ((entries.filterMap (fun e => sortedEntryPk field_path op v tyByte e.1)).dedup)

/-- `fetch_documents`: hydrate every key; any failure (including `NotFound`
from a dangling index entry) aborts. -/
def fetch_documents (S : Store) (keys : List Bytes) : Except DbErr (List JValue) :=
  keys.mapM (get_key S)

/-- The operator names `evaluate_condition_on_doc` receives. -/
inductive EvalOp where
  | eq
  | includes
  | gt
  | lt
  | gte
  | lte
  | ne
  deriving DecidableEq

/-- Array membership by structural equality (`Vec::contains`). -/
def jarrContains : JArr → JValue → Bool
  | .nil, _ => false
  | .cons v tl, q => v == q || jarrContains tl q

/-- Does any array element satisfy the predicate? -/
def jarrAny : JArr → (JValue → Bool) → Bool
  | .nil, _ => false
  | .cons v tl, p => p v || jarrAny tl p

/-- The comparison core of `evaluate_condition_on_doc` on a resolved value. -/
def evalPrim (dv : JValue) (op : EvalOp) (qv : JValue) : Bool :=
  match op with
  | .eq => dv == qv
  | .includes =>
    match dv with
    | .arr xs => jarrContains xs qv
    | _ => dv == qv
  | .gt => compare_values dv qv == some .gt
  | .lt => compare_values dv qv == some .lt
  | .gte => compare_values dv qv == some .gt || compare_values dv qv == some .eq
  | .lte => compare_values dv qv == some .lt || compare_values dv qv == some .eq
  | .ne => !(compare_values dv qv == some .eq)

/-- Join path fragments with a separator byte. -/
def joinParts (sep : Nat) : List Bytes → Bytes
  | [] => []
  | [p] => p
  | p :: p2 :: rest => p ++ sep :: joinParts sep (p2 :: rest)

/-- `Value::get(&str)`: object field lookup (`None` on any other shape). -/
def getObjField (v : JValue) (k : Bytes) : Option JValue :=
  match v with
  | .obj fs => fs.find? k
  | _ => none

/-- `evaluate_condition_on_doc`.  When the path resolves, compare the value;
otherwise, when the parent path resolves to an array, test whether any
element's object field named by the last fragment matches — the source
recurses there with the empty path, and at the empty path the recursion
reduces to the non-recursive expression inlined below (the else-branch needs
more than one fragment, and the empty path has exactly one). -/
def evaluate_condition_on_doc (doc : JValue) (field_path : Bytes) (op : EvalOp) (qv : JValue) : Bool :=
  match getValueByPath doc field_path with
  | some dv => evalPrim dv op qv
  | none =>
    let parts := splitByte 46 field_path
    if parts.length > 1 then
      let parentPath := joinParts 46 parts.dropLast
      match getValueByPath doc parentPath with
      | some (.arr xs) =>
        jarrAny xs (fun elem =>
          match getObjField elem (parts.getLastD []) with
          | some nested =>
            match getValueByPath nested [] with
            | some x => evalPrim x op qv
            | none => false
          | none => false)
      | _ => false
    else false

/-- `get_all_keys`: every store key outside the three reserved prefixes that
is valid UTF-8.  The source collects into a `HashSet` with unspecified
iteration order; it is modelled in scan order (sled keys are unique, so no
deduplication is needed).  No theorem below depends on this order. -/
def get_all_keys (S : Store) : List Bytes :=
  (storeKeys S).filter (fun k =>
    !startsWith k GEO_SORTED_INDEX_PFX && !startsWith k FIELD_INDEX_PFX &&
    !startsWith k FIELD_SORTED_INDEX_PFX && isValidUtf8 k)

/-! ### Projection (`insert_value_by_path`, `apply_projection`). -/

/-- `serde_json::Map::insert`: replace an existing binding, otherwise insert
in key order (the map is a `BTreeMap`). -/
def objInsert : JObj → Bytes → JValue → JObj
  | .nil, k, v => .cons k v .nil
  | .cons k2 v2 tl, k, v =>
    if k = k2 then .cons k v tl
    else if bytesLt k k2 then .cons k v (.cons k2 v2 tl)
    else .cons k2 v2 (objInsert tl k v)

/-- Array length. -/
def jarrLen : JArr → Nat
  | .nil => 0
  | .cons _ tl => 1 + jarrLen tl

/-- `Vec::push`. -/
def jarrPush : JArr → JValue → JArr
  | .nil, v => .cons v .nil
  | .cons h tl, v => .cons h (jarrPush tl v)

/-- Replace element `i`. -/
def jarrSet : JArr → Nat → JValue → JArr
  | .nil, _, _ => .nil
  | .cons _ tl, 0, v => .cons v tl
  | .cons h tl, i + 1, v => .cons h (jarrSet tl i v)

/-- Build an array from a list. -/
def jarrOfList : List JValue → JArr
  | [] => .nil
  | v :: rest => .cons v (jarrOfList rest)

/-- `insert_value_by_path`, with the mutation modelled as returning the
updated tree.  Intermediate containers are created per the next fragment
(array when it parses as an index), appending is allowed only at the current
array length, and anything else is an `InvalidPath` error. -/
def insert_value_by_path (target : JValue) (path_parts : List Bytes) (value_to_insert : JValue) : Except DbErr JValue :=
  match path_parts with
  | [] => .error .invalidPath
  | [k] =>
    match target with
    | .obj fs => .ok (.obj (objInsert fs k value_to_insert))
    | .arr xs =>
      match parseUsize k with
      | some i =>
        if i = jarrLen xs then .ok (.arr (jarrPush xs value_to_insert))
        else if i < jarrLen xs then .ok (.arr (jarrSet xs i value_to_insert))
        else .error .invalidPath
      | none => .error .invalidPath
    | _ => .error .invalidPath
  | k :: k2 :: rest =>
    match target with
    | .obj fs =>
      let nxt :=
        match fs.find? k with
        | some v => v
        | none => if (parseUsize k2).isSome then .arr .nil else .obj .nil
      do
        let v2 ← insert_value_by_path nxt (k2 :: rest) value_to_insert
        .ok (.obj (objInsert fs k v2))
    | .arr xs =>
      match parseUsize k with
      | some i =>
        if i < jarrLen xs then
          match xs.get? i with
          | some elem => do
            let v2 ← insert_value_by_path elem (k2 :: rest) value_to_insert
            .ok (.arr (jarrSet xs i v2))
          | none => .error .invalidPath
        else if i = jarrLen xs then
          let nv : JValue := if (parseUsize k2).isSome then .arr .nil else .obj .nil
          do
            let v2 ← insert_value_by_path nv (k2 :: rest) value_to_insert
            .ok (.arr (jarrPush xs v2))
        else .error .invalidPath
      | none => .error .invalidPath
    | _ => .error .invalidPath

/-- The values `elem.get(last_part)` collected over an array. -/
def jarrFieldVals : JArr → Bytes → List JValue
  | .nil, _ => []
  | .cons e tl, k =>
    match getObjField e k with
    | some v => v :: jarrFieldVals tl k
    | none => jarrFieldVals tl k

/-- One projection path applied to one document (the body of the inner loop
of `apply_projection`): copy the value at the path when present; otherwise,
for a multi-fragment path whose parent is an array, collect the elements'
fields and assign the array at the parent path when non-empty; otherwise log
and keep the accumulator. -/
def projectOne (doc : JValue) (path : Bytes) (acc : JValue) : Except DbErr JValue :=
  match getValueByPath doc path with
  | some v => insert_value_by_path acc (splitByte 46 path) v
  | none =>
    let parts := splitByte 46 path
    if parts.length > 1 then
      match getValueByPath doc (joinParts 46 parts.dropLast) with
      | some (.arr xs) =>
        let vals := jarrFieldVals xs (parts.getLastD [])
        if !vals.isEmpty then
          insert_value_by_path acc parts.dropLast (.arr (jarrOfList vals))
        else .ok acc
      | _ => .ok acc
    else .ok acc

/-- All projection paths applied to one document, starting from the empty
object. -/
def projectDoc (doc : JValue) : List Bytes → JValue → Except DbErr JValue
  | [], acc => .ok acc
  | path :: rest, acc => do
    let acc2 ← projectOne doc path acc
    projectDoc doc rest acc2

/-- Is the value a non-empty object? -/
def isNonemptyObj : JValue → Bool
  | .obj (.cons _ _ _) => true
  | _ => false

/-- Is the value the empty object? -/
def isEmptyObj : JValue → Bool
  | .obj .nil => true
  | _ => false

/-- `apply_projection`: with an empty path list the documents pass through;
otherwise each document is projected, non-empty projections (or projections
of the empty object) are kept, non-object non-null documents are dropped
with a warning, and anything else contributes an empty object. -/
def apply_projection (documents : List JValue) (projection : List Bytes) : Except DbErr (List JValue) :=
  if projection.isEmpty then .ok documents
  else
    match documents with
    | [] => .ok []
    | doc :: rest => do
      let pd ← projectDoc doc projection (.obj .nil)
      let tail ← apply_projection rest projection
      if isNonemptyObj pd || isEmptyObj doc then .ok (pd :: tail)
      else if !doc.isObj && !doc.isNull then .ok tail
      else .ok ((JValue.obj .nil) :: tail)

/-! ### Geospatial queries (§4.E). -/

/-- The scan loop body of `query_within_radius_simplified` over the entries
of one candidate cell.  `hav` is the haversine distance
`(doc_lat, doc_lon, center_lat, center_lon) ↦ meters`: the source computes it
with `f64` trigonometry, which a shallow embedding cannot evaluate, so every
theorem about the radius query quantifies over `hav`.  Entries whose key does
not split into at least four `':'`-fragments, or whose fragment 1 differs
from the field path, are skipped; a primary key already collected is skipped
(`results_map.contains_key`); a vanished primary key is logged and skipped;
any other hydration error aborts. -/
def geoScanEntries (hav : Frac → Frac → Frac → Frac → Frac) (S : Store) (field_path : Bytes)
    (center_lat center_lon radius : Frac) :
    Store → List (Bytes × JValue) → Except DbErr (List (Bytes × JValue))
  | [], acc => .ok acc
  | (k, _) :: rest, acc =>
    let parts := splitByte 58 k
    if parts.length < 4 then geoScanEntries hav S field_path center_lat center_lon radius rest acc
    else if parts.getD 1 [] ≠ field_path then
      geoScanEntries hav S field_path center_lat center_lon radius rest acc
    else
      let pk := parts.getLastD []
      if acc.any (fun e => e.1 == pk) then
        geoScanEntries hav S field_path center_lat center_lon radius rest acc
      else
        match get_key S pk with
        | .error .notFound => geoScanEntries hav S field_path center_lat center_lon radius rest acc
        | .error e => .error e
        | .ok value =>
          let acc2 :=
            match getValueByPath value field_path with
            | some pv =>
              match parseGeoPoint pv with
              | some gp =>
                if fracLe (hav gp.1 gp.2 center_lat center_lon) radius then acc ++ [(pk, value)]
                else acc
              | none => acc
            | none => acc
          geoScanEntries hav S field_path center_lat center_lon radius rest acc2

/-- The outer loop of `query_within_radius_simplified` over candidate cells. -/
def geoScanHashes (hav : Frac → Frac → Frac → Frac → Frac) (S : Store) (field_path : Bytes)
    (center_lat center_lon radius : Frac) :
    List Bytes → List (Bytes × JValue) → Except DbErr (List (Bytes × JValue))
  | [], acc => .ok acc
  | h :: rest, acc => do
    let acc2 ← geoScanEntries hav S field_path center_lat center_lon radius
      (scanPfx S (get_geo_sorted_index_pfx_for_hash field_path h)) acc
    geoScanHashes hav S field_path center_lat center_lon radius rest acc2

/-- `query_within_radius_simplified`: geohash the center, collect the center
cell and its 8 neighbors as the candidate set, scan each cell's prefix, and
keep hydrated documents within the radius.  The `HashMap` accumulation is
modelled as a first-wins association list returned in insertion order (no
theorem depends on the order). -/
def query_within_radius_simplified (hav : Frac → Frac → Frac → Frac → Frac) (S : Store)
    (field_path : Bytes) (center_lat center_lon radius_meters : Frac) :
    Except DbErr (List JValue) := do
  let center_hash ← gh_encode center_lon center_lat GEOHASH_PRECISION
  let nbs ← gh_neighbors center_hash
  let res ← geoScanHashes hav S field_path center_lat center_lon radius_meters
    (center_hash :: nbs) []
  .ok (res.map (fun e => e.2))

/-- The smaller of two fractions. -/
def fracMin (a b : Frac) : Frac := if fracLe a b then a else b

/-- The larger of two fractions. -/
def fracMax (a b : Frac) : Frac := if fracLe a b then b else a

/-- `Rect::new` normalisation plus point containment.  The boundary
semantics of the external `geo` crate's `Contains` are not verified; closed
containment is used, and no theorem below depends on it. -/
def rectContains (min_lat min_lon max_lat max_lon lat lon : Frac) : Bool :=
  fracLe (fracMin min_lon max_lon) lon && fracLe lon (fracMax min_lon max_lon) &&
  fracLe (fracMin min_lat max_lat) lat && fracLe lat (fracMax min_lat max_lat)

/-- The scan loop of `query_in_box`, structured like `geoScanEntries`. -/
def boxScanEntries (S : Store) (field_path : Bytes) (min_lat min_lon max_lat max_lon : Frac) :
    Store → List (Bytes × JValue) → Except DbErr (List (Bytes × JValue))
  | [], acc => .ok acc
  | (k, _) :: rest, acc =>
    let parts := splitByte 58 k
    if parts.length < 4 then boxScanEntries S field_path min_lat min_lon max_lat max_lon rest acc
    else if parts.getD 1 [] ≠ field_path then
      boxScanEntries S field_path min_lat min_lon max_lat max_lon rest acc
    else
      let pk := parts.getLastD []
      if acc.any (fun e => e.1 == pk) then
        boxScanEntries S field_path min_lat min_lon max_lat max_lon rest acc
      else
        match get_key S pk with
        | .error .notFound => boxScanEntries S field_path min_lat min_lon max_lat max_lon rest acc
        | .error e => .error e
        | .ok value =>
          let acc2 :=
            match getValueByPath value field_path with
            | some pv =>
              match parseGeoPoint pv with
              | some gp =>
                if rectContains min_lat min_lon max_lat max_lon gp.1 gp.2 then acc ++ [(pk, value)]
                else acc
              | none => acc
            | none => acc
          boxScanEntries S field_path min_lat min_lon max_lat max_lon rest acc2

/-- `query_in_box`: prefix-scan the whole per-field geo index and keep
hydrated documents inside the rectangle. -/
def query_in_box (S : Store) (field_path : Bytes) (min_lat min_lon max_lat max_lon : Frac) :
    Except DbErr (List JValue) := do
  let res ← boxScanEntries S field_path min_lat min_lon max_lat max_lon
    (scanPfx S (get_geo_sorted_index_pfx_for_field field_path)) []
  .ok (res.map (fun e => e.2))

/-! ### The AST executor (§4.G). -/

/-- `QueryNode`.  Scalar payloads carry the (ignored) `DataType` as in the
source. -/
inductive QueryNode where
  | eq (field : Bytes) (v : JValue) (t : DataType)
  | includes (field : Bytes) (v : JValue) (t : DataType)
  | gt (field : Bytes) (v : JValue) (t : DataType)
  | lt (field : Bytes) (v : JValue) (t : DataType)
  | gte (field : Bytes) (v : JValue) (t : DataType)
  | lte (field : Bytes) (v : JValue) (t : DataType)
  | ne (field : Bytes) (v : JValue) (t : DataType)
  | and (l r : QueryNode)
  | or (l r : QueryNode)
  | not (c : QueryNode)
  | geoWithinRadius (field : Bytes) (lat lon radius : Frac)
  | geoInBox (field : Bytes) (min_lat min_lon max_lat max_lon : Frac)

/-- `execute_ast_query`.  Leaves scan their index (`Eq` falls back to a
filtered full scan when a configured field yields no keys, and does not
re-check otherwise; `Includes` always post-filters); `And`/`Or`/`Not`
combine document multisets by structural document equality (the source's
`HashSet<HashableValue>`, modelled as deduplicated lists — no theorem
depends on the iteration order); pagination then projection apply at the
top level only, since inner calls pass `None`. -/
def execute_ast_query (hav : Frac → Frac → Frac → Frac → Frac) (S : Store) (node : QueryNode)
    (projection : Option (List Bytes)) (lim off : Option Nat) (cfg : DbConfig) :
    Except DbErr (List JValue) := do
  let results ←
    match node with
    | .eq field v _ =>
      let keys := fetch_keys_hash_index S field v
      if keys.isEmpty && cfg.hash_indexed_fields.contains field then do
        let allDocs ← fetch_documents S (get_all_keys S)
        .ok (allDocs.filter (fun d => evaluate_condition_on_doc d field .eq v))
      else fetch_documents S keys
    | .includes field v _ => do
      let docs ← fetch_documents S (fetch_keys_hash_index S field v)
      .ok (docs.filter (fun d => evaluate_condition_on_doc d field .includes v))
    | .gt field v t => do
      let keys ← fetch_keys_sorted_index S field .gt v t
      fetch_documents S keys
    | .lt field v t => do
      let keys ← fetch_keys_sorted_index S field .lt v t
      fetch_documents S keys
    | .gte field v t => do
      let keys ← fetch_keys_sorted_index S field .ge v t
      fetch_documents S keys
    | .lte field v t => do
      let keys ← fetch_keys_sorted_index S field .le v t
      fetch_documents S keys
    | .ne field v t => do
      let keys ← fetch_keys_sorted_index S field .ne v t
      fetch_documents S keys
    | .and l r => do
      let lr ← execute_ast_query hav S l none none none cfg
      let rr ← execute_ast_query hav S r none none none cfg
      .ok (lr.dedup.filter (fun d => rr.contains d))
    | .or l r => do
      let lr ← execute_ast_query hav S l none none none cfg
      let rr ← execute_ast_query hav S r none none none cfg
      .ok ((lr ++ rr).dedup)
    | .not c => do
      let allDocs ← fetch_documents S (get_all_keys S)
      let ex ← execute_ast_query hav S c none none none cfg
      .ok (allDocs.filter (fun d => !ex.contains d))
    | .geoWithinRadius field lat lon r => query_within_radius_simplified hav S field lat lon r
    | .geoInBox field a b c d => query_in_box S field a b c d
  let start := off.getD 0
  let paged :=
    if start < results.length then (results.drop start).take (lim.getD (results.length - start))
    else []
  match projection with
  | some pp => apply_projection paged pp
  | none => .ok paged

/-! ### Bulk operations (§4.H). -/

/-- The deletion loop shared (up to the error message text, which the model
drops) by `clear_prefix` and `drop_database`: each key goes through the full
delete path inside one transaction, the first failure aborting with the
offending key. -/
def deleteKeysFold (S : Store) (ks : List Bytes) (cfg : DbConfig) : Except DbErr Store :=
  match ks with
  | [] => .ok S
  | k :: rest =>
    match delete_key_internal S k cfg with
    | .ok S' => deleteKeysFold S' rest cfg
    | .error _ => .error (.txOpFailed k)

/-- `clear_prefix` (renamed `clear_pfx`): collect the UTF-8, non-reserved
keys under the prefix, count them, and delete each through the full delete
path in one transaction. -/
def clear_pfx (S : Store) (pfxB : Bytes) (cfg : DbConfig) : Except DbErr (Store × Nat) :=
  let keysToDelete :=
    ((scanPfx S pfxB).map (fun e => e.1)).filter (fun k =>
      isValidUtf8 k && !startsWith k GEO_SORTED_INDEX_PFX && !startsWith k FIELD_INDEX_PFX &&
      !startsWith k FIELD_SORTED_INDEX_PFX)
  let count := keysToDelete.length
  if count > 0 then do
    let S' ← deleteKeysFold S keysToDelete cfg
    .ok (S', count)
  else .ok (S, count)

/-- `drop_database`: delete every key of `get_all_keys` through the full
delete path in one transaction, returning the count. -/
def drop_database (S : Store) (cfg : DbConfig) : Except DbErr (Store × Nat) :=
  let allKeys := get_all_keys S
  let count := allKeys.length
  if count > 0 then do
    let S' ← deleteKeysFold S allKeys cfg
    .ok (S', count)
  else .ok (S, count)

deriving instance DecidableEq for Except

/-! ### Statement-support definitions. -/

/-- Turn a creation mutation into the matching removal. -/
def mutToDel : Mut → Mut
  | .ins k => .del k
  | .del k => .del k

/-- Does the key begin with one of the three reserved index prefixes? -/
def reservedPfx (k : Bytes) : Bool :=
  startsWith k FIELD_INDEX_PFX || startsWith k FIELD_SORTED_INDEX_PFX ||
  startsWith k GEO_SORTED_INDEX_PFX

/-- Every store key is skipped by the `fetch_keys_sorted_index` entry parse:
it has fewer than four `':'`-capped fragments, or its second fragment is not
the field path.  Well-formed sorted-index entries (three fragments when the
path and primary key are colon-free, and a hex second fragment otherwise)
satisfy this. -/
abbrev sortedScanSkips (S : Store) (field : Bytes) : Prop :=
  ∀ k ∈ storeKeys S, (splitNByte 58 4 k).length < 4 ∨ (splitNByte 58 4 k).getD 1 [] ≠ field

/-- Every store key is skipped by the radius-query entry parse: fewer than
four `':'`-fragments, or the second fragment differs from the field path.
Well-formed geo entries `__geo_sorted__<path>:<hash>:<pk>` with colon-free
path, hash and primary key have exactly three fragments. -/
abbrev geoScanSkips (S : Store) (field : Bytes) : Prop :=
  ∀ k ∈ storeKeys S, (splitByte 58 k).length < 4 ∨ (splitByte 58 k).getD 1 [] ≠ field

/-- No reserved-prefix key whose final `':'`-fragment is `pk` is present. -/
abbrev noReservedResidue (S : Store) (pk : Bytes) : Prop :=
  ∀ K ∈ storeKeys S, reservedPfx K = true → lastFrag K ≠ pk

/-- Every entry under a reserved prefix carries the empty payload, i.e. is an
index entry and not a primary document. -/
abbrev reservedEntriesEmpty (S : Store) : Prop :=
  ∀ e ∈ S, reservedPfx e.1 = true → e.2 = none

/-- Stores reachable from the empty store through the public write surface
(`set`, `batch_set`, `execute_transaction`, `import`, `delete`), with every
caller-supplied key outside the reserved prefixes; the configuration may
differ at every step (dynamic indexing). -/
inductive ReachableNR : Store → Prop where
  | empty : ReachableNR []
  | set (S S' : Store) (k : Bytes) (v : JValue) (cfg : DbConfig) :
      ReachableNR S → reservedPfx k = false → set_key S k v cfg = .ok S' → ReachableNR S'
  | batch (S S' : Store) (items : List (Bytes × JValue)) (cfg : DbConfig) :
      ReachableNR S → (∀ i ∈ items, reservedPfx i.1 = false) →
      batch_set S items cfg = .ok S' → ReachableNR S'
  | tx (S S' : Store) (ops : List TxOp) (cfg : DbConfig) :
      ReachableNR S → (∀ op ∈ ops, reservedPfx op.key = false) →
      execute_transaction S ops cfg = .ok S' → ReachableNR S'
  | imp (S S' : Store) (data : List (Bytes × JValue)) (oe : Option DbErr) (cfg : DbConfig) :
      ReachableNR S → (∀ i ∈ data, reservedPfx i.1 = false) →
      import_data S data cfg = (S', oe) → ReachableNR S'
  | del (S S' : Store) (k : Bytes) (cfg : DbConfig) :
      ReachableNR S → delete_key S k cfg = .ok S' → ReachableNR S'

/-! Concrete scenario data used by witnesses and counterexamples. -/

/-- A stand-in haversine function for witness instantiations (the theorems
about the radius query hold for every distance function). -/
def hav0 : Frac → Frac → Frac → Frac → Frac := fun _ _ _ _ => ⟨0, 1⟩

/-- Sorted index configured on `age` (scenario 3 of §8). -/
def exCfgAge : DbConfig := ⟨[], [asciiBytes ("age")], []⟩

/-- The document `{"age": n}`. -/
def exDocAge (n : Int) : JValue := .obj (.cons (asciiBytes ("age")) (.num (.int n)) .nil)

/-- The store after `set(p1, {age:10}); set(p2, {age:25}); set(p3, {age:40})`
under `exCfgAge` (checked against the write path in the C2 witness). -/
def exStoreAges : Store :=
  [(asciiBytes ("__field_sorted__age:01000000000000000a:p1"), none),
   (asciiBytes ("__field_sorted__age:010000000000000019:p2"), none),
   (asciiBytes ("__field_sorted__age:010000000000000028:p3"), none),
   (asciiBytes ("p1"), some (exDocAge 10)),
   (asciiBytes ("p2"), some (exDocAge 25)),
   (asciiBytes ("p3"), some (exDocAge 40))]

/-- Hash index configured on `city`. -/
def exCfgCity : DbConfig := ⟨[asciiBytes ("city")], [], []⟩

/-- The document `{"city": "Paris:x"}` whose value text embeds a colon. -/
def exDocParisColon : JValue :=
  .obj (.cons (asciiBytes ("city")) (.str (asciiBytes ("Paris:x"))) .nil)

/-- The store after `set(b, {city: "Paris:x"})` under `exCfgCity`. -/
def exStoreCity : Store :=
  [(asciiBytes ("__field_index__city:Paris:x:b"), none),
   (asciiBytes ("b"), some exDocParisColon)]

/-- Geo index configured on `loc`. -/
def exCfgLoc : DbConfig := ⟨[], [], [asciiBytes ("loc")]⟩

/-- A document whose GeoPoint at `loc` is the origin `(0, 0)`. -/
def exDocOrigin : JValue :=
  .obj (.cons (asciiBytes ("loc"))
    (.obj (.cons (asciiBytes ("lat")) (.num (.int 0))
      (.cons (asciiBytes ("lon")) (.num (.int 0)) .nil))) .nil)

/-- The store after `set(d1, exDocOrigin)` under `exCfgLoc`
(`geohash(0,0) = s00000000` at precision 9). -/
def exStoreGeo : Store :=
  [(asciiBytes ("__geo_sorted__loc:s00000000:d1"), none),
   (asciiBytes ("d1"), some exDocOrigin)]

/-- The 8 neighbors of `s00000000`, as `gh_neighbors` computes them. -/
def exNeighborsOrigin : List Bytes :=
  [asciiBytes ("s00000002"), asciiBytes ("s00000003"), asciiBytes ("s00000001"),
   asciiBytes ("kpbpbpbpc"), asciiBytes ("kpbpbpbpb"), asciiBytes ("7zzzzzzzz"),
   asciiBytes ("ebpbpbpbp"), asciiBytes ("ebpbpbpbr")]

/-- A document whose `loc` parses as a GeoPoint but has latitude 200, out of
geohash range: indexing it aborts the write with a geohash error. -/
def exDocBadGeo : JValue :=
  .obj (.cons (asciiBytes ("loc"))
    (.obj (.cons (asciiBytes ("lat")) (.num (.int 200))
      (.cons (asciiBytes ("lon")) (.num (.int 0)) .nil))) .nil)

/-- Sorted index configured on `a`. -/
def exCfgSortedA : DbConfig := ⟨[], [asciiBytes ("a")], []⟩

/-- The document `{"a": null}`: `null` at a sorted-indexed path is exactly
the value the codec rejects. -/
def exDocNullA : JValue := .obj (.cons (asciiBytes ("a")) .null .nil)

/-! ## Basic lemmas about the store model. -/

@[simp]
theorem exBind_ok {ε α β : Type} (a : α) (f : α → Except ε β) :
    (Except.ok a : Except ε α) >>= f = f a := rfl

@[simp]
theorem exBind_error {ε α β : Type} (e : ε) (f : α → Except ε β) :
    (Except.error e : Except ε α) >>= f = .error e := rfl

@[simp]
theorem applyMuts_nil (S : Store) : applyMuts S [] = S := rfl

@[simp]
theorem applyMuts_cons (S : Store) (m : Mut) (ms : List Mut) :
    applyMuts S (m :: ms) = applyMuts (applyMut S m) ms := rfl

theorem startsWith_nil (l : Bytes) : startsWith l [] = true := by cases l <;> rfl

theorem startsWith_append_self (p t : Bytes) : startsWith (p ++ t) p = true := by
  induction p with
  | nil => exact startsWith_nil t
  | cons a as ih => simp [startsWith, ih]

theorem storeGet_insert : ∀ (S : Store) (k : Bytes) (p : Option JValue) (K : Bytes),
    storeGet (storeInsert S k p) K = if K = k then some p else storeGet S K
  | [], k, p, K => by simp [storeInsert, storeGet]
  | (k2, p2) :: rest, k, p, K => by
    simp only [storeInsert]
    by_cases h1 : k = k2
    · subst h1
      simp only [if_pos rfl]
      by_cases h3 : K = k <;> simp [storeGet, h3]
    · rw [if_neg h1]
      by_cases h2 : bytesLt k k2
      · rw [if_pos h2]
        by_cases h3 : K = k <;> simp [storeGet, h3]
      · rw [if_neg h2]
        by_cases h3 : K = k2
        · subst h3
          have hkK : ¬(K = k) := fun hc => h1 hc.symm
          simp [storeGet, hkK]
        · simp [storeGet, h3, storeGet_insert rest k p K]

theorem storeGet_remove : ∀ (S : Store) (k K : Bytes),
    storeGet (storeRemove S k) K = if K = k then none else storeGet S K
  | [], k, K => by simp [storeRemove, storeGet]
  | (k2, p2) :: rest, k, K => by
    have hr := storeGet_remove rest k K
    by_cases h1 : k2 = k
    · subst h1
      have hstep : storeRemove ((k2, p2) :: rest) k2 = storeRemove rest k2 := by
        simp [storeRemove, List.filter]
      rw [hstep, hr]
      by_cases h3 : K = k2 <;> simp [storeGet, h3]
    · have hne : (k2 == k) = false := beq_eq_false_iff_ne.mpr h1
      have hstep : storeRemove ((k2, p2) :: rest) k = (k2, p2) :: storeRemove rest k := by
        simp [storeRemove, List.filter, hne]
      rw [hstep]
      by_cases h3 : K = k2
      · subst h3
        have hKk : ¬(K = k) := h1
        simp [storeGet, hKk]
      · simp [storeGet, h3, hr]

theorem storeGet_none_iff : ∀ (S : Store) (K : Bytes),
    storeGet S K = none ↔ K ∉ storeKeys S
  | [], K => by simp [storeGet, storeKeys]
  | (k2, p2) :: rest, K => by
    by_cases h : K = k2
    · subst h; simp [storeGet, storeKeys]
    · simp [storeGet, storeKeys, h, storeGet_none_iff rest K]

theorem storeGet_applyMuts_del : ∀ (ms : List Mut) (S : Store) (K : Bytes),
    (∀ m ∈ ms, ∃ k, m = .del k) →
    storeGet (applyMuts S ms) K =
      if ms.any (fun m => m.key == K) then none else storeGet S K
  | [], S, K, _ => by simp
  | m :: ms, S, K, h => by
    obtain ⟨k, rfl⟩ := h m (List.mem_cons_self m ms)
    have ih := storeGet_applyMuts_del ms (storeRemove S k) K
      (fun m2 hm2 => h m2 (List.mem_cons_of_mem _ hm2))
    rw [applyMuts_cons]
    show storeGet (applyMuts (storeRemove S k) ms) K = _
    rw [ih, storeGet_remove]
    by_cases h3 : K = k
    · subst h3; simp [Mut.key]
    · have : (Mut.key (.del k) == K) = false := by
        simp [Mut.key, beq_eq_false_iff_ne]
        exact fun hc => h3 hc.symm
      simp [this, h3]

theorem storeGet_applyMuts_ins : ∀ (ms : List Mut) (S : Store) (K : Bytes),
    (∀ m ∈ ms, ∃ k, m = .ins k) →
    storeGet (applyMuts S ms) K =
      if ms.any (fun m => m.key == K) then some none else storeGet S K
  | [], S, K, _ => by simp
  | m :: ms, S, K, h => by
    obtain ⟨k, rfl⟩ := h m (List.mem_cons_self m ms)
    have ih := storeGet_applyMuts_ins ms (storeInsert S k none) K
      (fun m2 hm2 => h m2 (List.mem_cons_of_mem _ hm2))
    rw [applyMuts_cons]
    show storeGet (applyMuts (storeInsert S k none) ms) K = _
    rw [ih, storeGet_insert]
    by_cases h3 : K = k
    · subst h3; simp [Mut.key]
    · have : (Mut.key (.ins k) == K) = false := by
        simp [Mut.key, beq_eq_false_iff_ne]
        exact fun hc => h3 hc.symm
      simp [this, h3]

/-! ## C10: deleting an absent key succeeds and changes nothing. -/

/-- C10.  For every key `k` not present as a primary key in the store,
`delete_key(k)` returns `Ok` (not a not-found error) and leaves every entry
of the store unchanged. -/
theorem delete_missing_key_noop (S : Store) (k : Bytes) (cfg : DbConfig)
    (h : storeGet S k = none) : delete_key S k cfg = .ok S := by
  simp [delete_key, delete_key_internal, h]

/-- Witness for C10 at a concrete store and key. -/
theorem delete_missing_key_noop_witness :
    storeGet [(asciiBytes ("a"), some JValue.null)] (asciiBytes ("b")) = none ∧
    delete_key [(asciiBytes ("a"), some JValue.null)] (asciiBytes ("b")) exCfgAge =
      .ok [(asciiBytes ("a"), some JValue.null)] :=
  ⟨by decide, delete_missing_key_noop _ _ _ (by decide)⟩

/-! ## C9: `drop_database` coincides with `clear_prefix` at the empty
prefix. -/

/-- C9.  For every store and configuration, `drop_database` is
`clear_prefix` with the empty prefix: the same keys are deleted through the
same full delete path, and the same count is returned (on failure, the same
offending key is reported). -/
theorem drop_database_eq_clear_pfx_empty (S : Store) (cfg : DbConfig) :
    drop_database S cfg = clear_pfx S [] cfg := by
  have hswap : ∀ a b c d : Bool, (((d && a) && b) && c) = (((a && b) && c) && d) := by decide
  have hscan : scanPfx S [] = S :=
    List.filter_eq_self.mpr (fun e _ => startsWith_nil e.1)
  have hlists :
      (storeKeys S).filter (fun k =>
        !startsWith k GEO_SORTED_INDEX_PFX && !startsWith k FIELD_INDEX_PFX &&
        !startsWith k FIELD_SORTED_INDEX_PFX && isValidUtf8 k) =
      ((scanPfx S []).map (fun e => e.1)).filter (fun k =>
        isValidUtf8 k && !startsWith k GEO_SORTED_INDEX_PFX && !startsWith k FIELD_INDEX_PFX &&
        !startsWith k FIELD_SORTED_INDEX_PFX) := by
    rw [hscan]
    exact List.filter_congr (fun k _ => (hswap _ _ _ (isValidUtf8 k)).symm)
  unfold drop_database clear_pfx get_all_keys
  rw [hlists]

/-! ## C2: sorted-index range queries return nothing (key-parse bug).

`get_field_sorted_index_key` composes entries with three `':'`-separated
fragments (`__field_sorted__<path>:<hex>:<pk>` — no separator between the
constant prefix and the path), but the scan loop of
`fetch_keys_sorted_index` splits with `splitn(4, ':')` and skips every key
with fewer than four fragments, and when a colon elsewhere yields a fourth
fragment, fragment 1 is the hex fragment, not the path.  Every well-formed
entry is therefore skipped and the fetch returns the empty set. -/

theorem sortedEntryPk_none (field : Bytes) (op : SortedOp) (v : JValue) (ty : Option Nat)
    (k : Bytes)
    (h : (splitNByte 58 4 k).length < 4 ∨ (splitNByte 58 4 k).getD 1 [] ≠ field) :
    sortedEntryPk field op v ty k = none := by
  simp only [sortedEntryPk]
  rcases h with h | h
  · simp [h]
  · by_cases h4 : (splitNByte 58 4 k).length < 4
    · simp [h4]
    · rw [if_neg h4]
      by_cases h5 : (splitNByte 58 4 k).getD 1 [] ≠ field
      · rw [if_pos h5]
      · exact absurd h h5

theorem fetch_keys_sorted_index_empty (S : Store) (field : Bytes) (op : SortedOp) (v : JValue)
    (t : DataType) (hS : sortedScanSkips S field) (henc : ∃ b, encode_sorted_value v = .ok b) :
    fetch_keys_sorted_index S field op v t = .ok [] := by
  obtain ⟨b, hb⟩ := henc
  have hskip : ∀ (e : Bytes × Option JValue), e ∈ S →
      sortedEntryPk field op v b.head? e.1 = none := by
    intro e he
    exact sortedEntryPk_none _ _ _ _ _ (hS e.1 (List.mem_map_of_mem _ he))
  unfold fetch_keys_sorted_index
  rw [hb]
  cases op <;>
    simp only [scanPfx, rangeScan] <;>
    rw [List.filterMap_eq_nil_iff.mpr (fun a ha => hskip a (List.mem_filter.mp ha).1)] <;>
    rfl

/-- C2 (code bug).  On every store whose keys are skipped by the
`splitn(4, ':')` parse of the sorted-index scan — which includes every store
whose sorted-index entries are well-formed, in particular every store the
write path itself builds over colon-free paths and primary keys — the AST
query `And(Gte(P, a), Lt(P, b))` returns the empty result, for all numeric
bounds, instead of the documents with value in `[a, b)`. -/
theorem sorted_range_query_always_empty (hav : Frac → Frac → Frac → Frac → Frac) (S : Store)
    (cfg : DbConfig) (field : Bytes) (a b : JNum) (ta tb : DataType)
    (hS : sortedScanSkips S field) :
    execute_ast_query hav S (.and (.gte field (.num a) ta) (.lt field (.num b) tb))
      none none none cfg = .ok [] := by
  have hfa := fetch_keys_sorted_index_empty S field .ge (.num a) ta hS
    (by cases a <;> exact ⟨_, rfl⟩)
  have hfb := fetch_keys_sorted_index_empty S field .lt (.num b) tb hS
    (by cases b <;> exact ⟨_, rfl⟩)
  simp [execute_ast_query, hfa, hfb]
  all_goals rfl

/-- Witness for C2: the literal scenario-3 store (three documents with
`age` 10, 25, 40, checked to be exactly what three `set` calls build), whose
keys the parse skips; `p2` lies in `[20, 30)` under `compare_values`, yet
the range query returns the empty list. -/
theorem sorted_range_query_always_empty_witness :
    (do
      let s1 ← set_key [] (asciiBytes ("p1")) (exDocAge 10) exCfgAge
      let s2 ← set_key s1 (asciiBytes ("p2")) (exDocAge 25) exCfgAge
      set_key s2 (asciiBytes ("p3")) (exDocAge 40) exCfgAge) = .ok exStoreAges ∧
    sortedScanSkips exStoreAges (asciiBytes ("age")) ∧
    get_key exStoreAges (asciiBytes ("p2")) = .ok (exDocAge 25) ∧
    compare_values (.num (.int 25)) (.num (.int 20)) = some .gt ∧
    compare_values (.num (.int 25)) (.num (.int 30)) = some .lt ∧
    execute_ast_query hav0 exStoreAges
      (.and (.gte (asciiBytes ("age")) (.num (.int 20)) .number)
            (.lt (asciiBytes ("age")) (.num (.int 30)) .number))
      none none none exCfgAge = .ok [] :=
  ⟨by decide, by decide, by decide, by decide, by decide,
   sorted_range_query_always_empty hav0 exStoreAges exCfgAge (asciiBytes ("age"))
     (.int 20) (.int 30) .number .number (by decide)⟩

/-! ## C1: the geo radius query returns nothing (same key-parse bug).

`query_within_radius_simplified` splits each scanned key on every `':'` and
skips keys with fewer than four fragments; well-formed geo entries
`__geo_sorted__<path>:<hash>:<pk>` have three.  The query therefore returns
the empty set regardless of the candidate cell set, the stored points and
the radius — so a document at distance 0 from the center is already missed,
before the un-expanded 3×3 neighborhood (the defect §9 of the spec flags)
could even matter. -/

theorem geoScanEntries_skip (hav : Frac → Frac → Frac → Frac → Frac) (S : Store)
    (field : Bytes) (lat lon r : Frac) :
    ∀ (l : Store) (acc : List (Bytes × JValue)),
      (∀ e ∈ l, (splitByte 58 e.1).length < 4 ∨ (splitByte 58 e.1).getD 1 [] ≠ field) →
      geoScanEntries hav S field lat lon r l acc = .ok acc
  | [], acc, _ => by simp [geoScanEntries]
  | (k, p) :: rest, acc, h => by
    have hrest := geoScanEntries_skip hav S field lat lon r rest acc
      (fun e he => h e (List.mem_cons_of_mem _ he))
    rcases h (k, p) (List.mem_cons_self _ _) with h1 | h1
    · simp only [geoScanEntries]
      rw [if_pos h1]
      exact hrest
    · by_cases h4 : (splitByte 58 k).length < 4
      · simp only [geoScanEntries]
        rw [if_pos h4]
        exact hrest
      · simp only [geoScanEntries]
        rw [if_neg h4, if_pos h1]
        exact hrest

theorem geoScanHashes_skip (hav : Frac → Frac → Frac → Frac → Frac) (S : Store)
    (field : Bytes) (lat lon r : Frac) (hS : geoScanSkips S field) :
    ∀ (hs : List Bytes) (acc : List (Bytes × JValue)),
      geoScanHashes hav S field lat lon r hs acc = .ok acc
  | [], acc => by simp [geoScanHashes]
  | h :: hs, acc => by
    have hone : geoScanEntries hav S field lat lon r
        (scanPfx S (get_geo_sorted_index_pfx_for_hash field h)) acc = .ok acc :=
      geoScanEntries_skip hav S field lat lon r _ acc
        (fun e he => hS e.1 (List.mem_map_of_mem _ (List.mem_filter.mp he).1))
    simp only [geoScanHashes]
    rw [hone]
    exact geoScanHashes_skip hav S field lat lon r hS hs acc

/-- C1 (code bug).  Whenever the center geohash and its neighbor set are
computed (any in-range center), the radius query returns the empty result on
every store whose keys are skipped by the `split(':')` parse — which
includes every store whose geo-index entries are well-formed, in particular
every store the write path itself builds over colon-free paths and primary
keys — for every radius and every distance function; the spec instead
requires exactly the documents within the radius (under circle-covering
cell expansion). -/
theorem geo_radius_scan_always_empty (hav : Frac → Frac → Frac → Frac → Frac) (S : Store)
    (field : Bytes) (lat lon r : Frac) (ch : Bytes) (ns : List Bytes)
    (h1 : gh_encode lon lat GEOHASH_PRECISION = .ok ch)
    (h2 : gh_neighbors ch = .ok ns)
    (hS : geoScanSkips S field) :
    query_within_radius_simplified hav S field lat lon r = .ok [] := by
  unfold query_within_radius_simplified
  rw [h1]
  simp only [exBind_ok]
  rw [h2]
  simp only [exBind_ok]
  rw [geoScanHashes_skip hav S field lat lon r hS (ch :: ns) []]
  rfl

/-- Witness for C1: the store holding one document whose GeoPoint at `loc`
is exactly the query center `(0, 0)` (so its haversine distance to the
center is 0 for any metric), checked to be exactly what `set(d1, ·)` builds
together with its geo index entry under cell `s00000000`; the radius-500 m
query at the center returns the empty list. -/
theorem geo_radius_scan_always_empty_witness :
    set_key [] (asciiBytes ("d1")) exDocOrigin exCfgLoc = .ok exStoreGeo ∧
    getValueByPath exDocOrigin (asciiBytes ("loc")) ≠ none ∧
    (∃ gp, (getValueByPath exDocOrigin (asciiBytes ("loc"))).bind parseGeoPoint = some gp ∧
      gp = (⟨0, 1⟩, ⟨0, 1⟩)) ∧
    geoScanSkips exStoreGeo (asciiBytes ("loc")) ∧
    query_within_radius_simplified hav0 exStoreGeo (asciiBytes ("loc")) ⟨0, 1⟩ ⟨0, 1⟩ ⟨500, 1⟩ =
      .ok [] :=
  ⟨by decide, by decide, ⟨(⟨0, 1⟩, ⟨0, 1⟩), by decide, rfl⟩, by decide,
   geo_radius_scan_always_empty hav0 exStoreGeo (asciiBytes ("loc")) ⟨0, 1⟩ ⟨0, 1⟩ ⟨500, 1⟩
     (asciiBytes ("s00000000")) exNeighborsOrigin (by decide) (by decide) (by decide)⟩

/-! ## C5: which errors abort a write.

`index_value_recursive` and `remove_indices_recursive` silently skip a
failing `encode_sorted_value` (`if let Ok`), so an unencodable value at a
sorted-indexed path does not abort the write; the only error the index
walk itself raises is a geohash-encoding failure. -/

theorem gh_encode_error (lon lat : Frac) (p : Nat) (e : DbErr)
    (h : gh_encode lon lat p = .error e) : e = .geohash := by
  unfold gh_encode at h
  by_cases hc : (fracLt lon ⟨-180, 1⟩ || fracLt ⟨180, 1⟩ lon ||
      fracLt lat ⟨-90, 1⟩ || fracLt ⟨90, 1⟩ lat) = true
  · rw [if_pos hc] at h
    exact (Except.error.injEq _ _).mp h.symm
  · rw [if_neg hc] at h
    exact absurd h (by simp)

mutual
theorem index_value_error (key cur : Bytes) (v : JValue) (cfg : DbConfig) :
    ∀ e, index_value_recursive key cur v cfg = .error e → e = .geohash
  | e, h => by
    match v with
    | .obj fs => exact index_obj_error key cur fs cfg e h
    | .arr xs => exact index_arr_error key cur 0 xs cfg e h
    | .null => simp [index_value_recursive] at h
    | .bool _ => simp [index_value_recursive] at h
    | .num _ => simp [index_value_recursive] at h
    | .str _ => simp [index_value_recursive] at h
theorem index_obj_error (key cur : Bytes) (fs : JObj) (cfg : DbConfig) :
    ∀ e, index_obj_fields key cur fs cfg = .error e → e = .geohash
  | e, h => by
    match fs with
    | .nil => simp [index_obj_fields] at h
    | .cons f fv tl =>
      simp only [index_obj_fields] at h
      by_cases hg : cfg.geo_indexed_fields.contains (joinPath cur f)
      · rw [if_pos hg] at h
        cases hp : parseGeoPoint fv with
        | none =>
          simp only [hp] at h
          simp only [pure_bind, exBind_ok] at h
          cases hsub : index_value_recursive key (joinPath cur f) fv cfg with
          | error esub =>
            simp only [hsub] at h
            simp only [exBind_error] at h
            have hx := index_value_error key (joinPath cur f) fv cfg esub hsub
            cases h
            exact hx
          | ok sub =>
            simp only [hsub] at h
            simp only [pure_bind, exBind_ok] at h
            cases hrest : index_obj_fields key cur tl cfg with
            | error erest =>
              simp only [hrest] at h
              simp only [exBind_error] at h
              have hx := index_obj_error key cur tl cfg erest hrest
              cases h
              exact hx
            | ok rest =>
              simp only [hrest] at h
              simp at h
        | some gp =>
          simp only [hp] at h
          cases hh : gh_encode gp.2 gp.1 GEOHASH_PRECISION with
          | error eg =>
            simp only [hh] at h
            simp only [exBind_error] at h
            have hx := gh_encode_error _ _ _ _ hh
            cases h
            exact hx
          | ok ghv =>
            simp only [hh] at h
            simp only [pure_bind, exBind_ok] at h
            cases hsub : index_value_recursive key (joinPath cur f) fv cfg with
            | error esub =>
              simp only [hsub] at h
              simp only [exBind_error] at h
              have hx := index_value_error key (joinPath cur f) fv cfg esub hsub
              cases h
              exact hx
            | ok sub =>
              simp only [hsub] at h
              simp only [pure_bind, exBind_ok] at h
              cases hrest : index_obj_fields key cur tl cfg with
              | error erest =>
                simp only [hrest] at h
                simp only [exBind_error] at h
                have hx := index_obj_error key cur tl cfg erest hrest
                cases h
                exact hx
              | ok rest =>
                simp only [hrest] at h
                simp at h
      · rw [if_neg hg] at h
        simp only [pure_bind, exBind_ok] at h
        cases hsub : index_value_recursive key (joinPath cur f) fv cfg with
        | error esub =>
          simp only [hsub] at h
          simp only [exBind_error] at h
          have hx := index_value_error key (joinPath cur f) fv cfg esub hsub
          cases h
          exact hx
        | ok sub =>
          simp only [hsub] at h
          simp only [pure_bind, exBind_ok] at h
          cases hrest : index_obj_fields key cur tl cfg with
          | error erest =>
            simp only [hrest] at h
            simp only [exBind_error] at h
            have hx := index_obj_error key cur tl cfg erest hrest
            cases h
            exact hx
          | ok rest =>
            simp only [hrest] at h
            simp at h
theorem index_arr_error (key cur : Bytes) (i : Nat) (xs : JArr) (cfg : DbConfig) :
    ∀ e, index_arr_elems key cur i xs cfg = .error e → e = .geohash
  | e, h => by
    match xs with
    | .nil => simp [index_arr_elems] at h
    | .cons x tl =>
      simp only [index_arr_elems] at h
      cases hsub : index_value_recursive key (cur ++ [46] ++ natDec i) x cfg with
      | error esub =>
        simp only [hsub] at h
        simp only [exBind_error] at h
        have hx := index_value_error key (cur ++ [46] ++ natDec i) x cfg esub hsub
        cases h
        exact hx
      | ok sub =>
        simp only [hsub] at h
        simp only [pure_bind, exBind_ok] at h
        cases hrest : index_arr_elems key cur (i + 1) tl cfg with
        | error erest =>
          simp only [hrest] at h
          simp only [exBind_error] at h
          have hx := index_arr_error key cur (i + 1) tl cfg erest hrest
          cases h
          exact hx
        | ok rest =>
          simp only [hrest] at h
          simp at h
end

mutual
theorem remove_value_error (key cur : Bytes) (v : JValue) (cfg : DbConfig) :
    ∀ e, remove_indices_recursive key cur v cfg = .error e → e = .geohash
  | e, h => by
    match v with
    | .obj fs => exact remove_obj_error key cur fs cfg e h
    | .arr xs => exact remove_arr_error key cur 0 xs cfg e h
    | .null => simp [remove_indices_recursive] at h
    | .bool _ => simp [remove_indices_recursive] at h
    | .num _ => simp [remove_indices_recursive] at h
    | .str _ => simp [remove_indices_recursive] at h
theorem remove_obj_error (key cur : Bytes) (fs : JObj) (cfg : DbConfig) :
    ∀ e, remove_obj_fields key cur fs cfg = .error e → e = .geohash
  | e, h => by
    match fs with
    | .nil => simp [remove_obj_fields] at h
    | .cons f fv tl =>
      simp only [remove_obj_fields] at h
      by_cases hg : cfg.geo_indexed_fields.contains (joinPath cur f)
      · rw [if_pos hg] at h
        cases hp : parseGeoPoint fv with
        | none =>
          simp only [hp] at h
          simp only [pure_bind, exBind_ok] at h
          cases hsub : remove_indices_recursive key (joinPath cur f) fv cfg with
          | error esub =>
            simp only [hsub] at h
            simp only [exBind_error] at h
            have hx := remove_value_error key (joinPath cur f) fv cfg esub hsub
            cases h
            exact hx
          | ok sub =>
            simp only [hsub] at h
            simp only [pure_bind, exBind_ok] at h
            cases hrest : remove_obj_fields key cur tl cfg with
            | error erest =>
              simp only [hrest] at h
              simp only [exBind_error] at h
              have hx := remove_obj_error key cur tl cfg erest hrest
              cases h
              exact hx
            | ok rest =>
              simp only [hrest] at h
              simp at h
        | some gp =>
          simp only [hp] at h
          cases hh : gh_encode gp.2 gp.1 GEOHASH_PRECISION with
          | error eg =>
            simp only [hh] at h
            simp only [exBind_error] at h
            have hx := gh_encode_error _ _ _ _ hh
            cases h
            exact hx
          | ok ghv =>
            simp only [hh] at h
            simp only [pure_bind, exBind_ok] at h
            cases hsub : remove_indices_recursive key (joinPath cur f) fv cfg with
            | error esub =>
              simp only [hsub] at h
              simp only [exBind_error] at h
              have hx := remove_value_error key (joinPath cur f) fv cfg esub hsub
              cases h
              exact hx
            | ok sub =>
              simp only [hsub] at h
              simp only [pure_bind, exBind_ok] at h
              cases hrest : remove_obj_fields key cur tl cfg with
              | error erest =>
                simp only [hrest] at h
                simp only [exBind_error] at h
                have hx := remove_obj_error key cur tl cfg erest hrest
                cases h
                exact hx
              | ok rest =>
                simp only [hrest] at h
                simp at h
      · rw [if_neg hg] at h
        simp only [pure_bind, exBind_ok] at h
        cases hsub : remove_indices_recursive key (joinPath cur f) fv cfg with
        | error esub =>
          simp only [hsub] at h
          simp only [exBind_error] at h
          have hx := remove_value_error key (joinPath cur f) fv cfg esub hsub
          cases h
          exact hx
        | ok sub =>
          simp only [hsub] at h
          simp only [pure_bind, exBind_ok] at h
          cases hrest : remove_obj_fields key cur tl cfg with
          | error erest =>
            simp only [hrest] at h
            simp only [exBind_error] at h
            have hx := remove_obj_error key cur tl cfg erest hrest
            cases h
            exact hx
          | ok rest =>
            simp only [hrest] at h
            simp at h
theorem remove_arr_error (key cur : Bytes) (i : Nat) (xs : JArr) (cfg : DbConfig) :
    ∀ e, remove_arr_elems key cur i xs cfg = .error e → e = .geohash
  | e, h => by
    match xs with
    | .nil => simp [remove_arr_elems] at h
    | .cons x tl =>
      simp only [remove_arr_elems] at h
      cases hsub : remove_indices_recursive key (cur ++ [46] ++ natDec i) x cfg with
      | error esub =>
        simp only [hsub] at h
        simp only [exBind_error] at h
        have hx := remove_value_error key (cur ++ [46] ++ natDec i) x cfg esub hsub
        cases h
        exact hx
      | ok sub =>
        simp only [hsub] at h
        simp only [pure_bind, exBind_ok] at h
        cases hrest : remove_arr_elems key cur (i + 1) tl cfg with
        | error erest =>
          simp only [hrest] at h
          simp only [exBind_error] at h
          have hx := remove_arr_error key cur (i + 1) tl cfg erest hrest
          cases h
          exact hx
        | ok rest =>
          simp only [hrest] at h
          simp at h
end

/-- C5 (amended).  A write aborts only on a geohash-encoding failure: every
other index-maintenance hiccup — in particular a sorted-codec failure during
entry creation or stale-entry removal — is silently skipped and the write
commits (the counterexample shows the commit). -/
theorem write_error_only_geohash (S : Store) (k : Bytes) (v : JValue) (cfg : DbConfig)
    (e : DbErr) (h : set_key S k v cfg = .error e) : e = .geohash := by
  unfold set_key set_key_internal at h
  cases hold : storeGet S k with
  | none =>
    simp only [hold] at h
    simp only [pure_bind, exBind_ok] at h
    cases hcrea : index_value_recursive k [] v cfg with
    | error ec =>
      simp only [hcrea] at h
      simp only [exBind_error] at h
      have hx := index_value_error k [] v cfg ec hcrea
      cases h
      exact hx
    | ok crea =>
      simp only [hcrea] at h
      simp at h
  | some pl =>
    simp only [hold] at h
    cases pl with
    | none =>
      simp only [pure_bind, exBind_ok] at h
      cases hcrea : index_value_recursive k [] v cfg with
      | error ec =>
        simp only [hcrea] at h
        simp only [exBind_error] at h
        have hx := index_value_error k [] v cfg ec hcrea
        cases h
        exact hx
      | ok crea =>
        simp only [hcrea] at h
        simp at h
    | some oldVal =>
      cases hrem : remove_indices_recursive k [] oldVal cfg with
      | error er =>
        simp only [hrem] at h
        simp only [exBind_error] at h
        have hx := remove_value_error k [] oldVal cfg er hrem
        cases h
        exact hx
      | ok rem =>
        simp only [hrem] at h
        simp only [pure_bind, exBind_ok] at h
        cases hcrea : index_value_recursive k [] v cfg with
        | error ec =>
          simp only [hcrea] at h
          simp only [exBind_error] at h
          have hx := index_value_error k [] v cfg ec hcrea
          cases h
          exact hx
        | ok crea =>
          simp only [hcrea] at h
          simp at h

/-- Witness for C5 (amended): indexing `{lat: 200, lon: 0}` at a
geo-configured path fails geohash encoding and the theorem pins the error. -/
theorem write_error_only_geohash_witness :
    ∃ e, set_key [] (asciiBytes ("k2")) exDocBadGeo exCfgLoc = .error e ∧ e = .geohash :=
  ⟨.geohash, by decide, write_error_only_geohash [] (asciiBytes ("k2")) exDocBadGeo exCfgLoc
    .geohash (by decide)⟩

/-- Counterexample for C5 as stated: storing `{"a": null}` with a sorted
index configured on `a` hits the `encode_sorted_value` failure (shown), yet
the write returns `Ok` and the document is visible — it does not abort with
no visible effect. -/
theorem sorted_encode_failure_commits_counterexample :
    set_key [] (asciiBytes ("k")) exDocNullA exCfgSortedA =
      .ok [(asciiBytes ("k"), some exDocNullA)] ∧
    encode_sorted_value .null = .error () ∧
    storeGet [(asciiBytes ("k"), some exDocNullA)] (asciiBytes ("k")) = some (some exDocNullA) := by
  decide

/-! ## C7: transactional batches refine the atomic spec. -/

theorem txSpecRefine : ∀ (ops : List TxOp) (S0 Scur : Store) (cfg : DbConfig),
    (∀ S2, execute_transaction Scur ops cfg = .ok S2 →
      transaction_spec S0 Scur ops cfg = (S2, none)) ∧
    (∀ e, execute_transaction Scur ops cfg = .error e →
      ∃ k, e = .txOpFailed k ∧ (∃ op ∈ ops, op.key = k) ∧
        transaction_spec S0 Scur ops cfg = (S0, some k))
  | [], S0, Scur, cfg => by
    constructor
    · intro S2 h
      simp only [execute_transaction] at h
      cases h
      rfl
    · intro e h
      simp [execute_transaction] at h
  | op :: rest, S0, Scur, cfg => by
    constructor
    · intro S2 h
      simp only [execute_transaction] at h
      cases hstep : txStepRaw Scur cfg op with
      | ok S' =>
        simp only [hstep] at h
        have := (txSpecRefine rest S0 S' cfg).1 S2 h
        simp only [transaction_spec, hstep]
        exact this
      | error e0 =>
        simp only [hstep] at h
        cases h
    · intro e h
      simp only [execute_transaction] at h
      cases hstep : txStepRaw Scur cfg op with
      | ok S' =>
        simp only [hstep] at h
        obtain ⟨k, hk, ⟨op2, hop2, hkey⟩, hspec⟩ := (txSpecRefine rest S0 S' cfg).2 e h
        exact ⟨k, hk, ⟨op2, List.mem_cons_of_mem _ hop2, hkey⟩, by
          simp only [transaction_spec, hstep]; exact hspec⟩
      | error e0 =>
        simp only [hstep] at h
        cases h
        exact ⟨op.key, rfl, ⟨op, List.mem_cons_self _ _, rfl⟩, by
          simp only [transaction_spec, hstep]⟩

/-- C7.  `execute_transaction` refines the atomic batch semantics: when it
succeeds, the result is exactly the sequential application of all the
operations (`transaction_spec` reports no failure and the same store); when
it fails, the error is `transaction-failed` naming the key of an operation
in the list, and the spec semantics rolls back to the caller's store — no
operation takes effect (the error result commits nothing, per the
transaction facade). -/
theorem transaction_atomic_refinement (S : Store) (ops : List TxOp) (cfg : DbConfig) :
    (∀ S2, execute_transaction S ops cfg = .ok S2 →
      transaction_spec S S ops cfg = (S2, none)) ∧
    (∀ e, execute_transaction S ops cfg = .error e →
      ∃ k, e = .txOpFailed k ∧ (∃ op ∈ ops, op.key = k) ∧
        transaction_spec S S ops cfg = (S, some k)) :=
  txSpecRefine ops S S cfg

/-- Witness for C7: a two-operation batch whose second `set` carries an
out-of-range GeoPoint fails as `transaction-failed` naming `k2`, and the
spec semantics confirms the rollback; a singleton batch of the first `set`
alone succeeds and takes effect. -/
theorem transaction_atomic_refinement_witness :
    execute_transaction []
      [TxOp.set (asciiBytes ("k1")) (exDocAge 1), TxOp.set (asciiBytes ("k2")) exDocBadGeo]
      exCfgLoc = .error (.txOpFailed (asciiBytes ("k2"))) ∧
    (∃ k, DbErr.txOpFailed (asciiBytes ("k2")) = .txOpFailed k ∧
      (∃ op ∈ [TxOp.set (asciiBytes ("k1")) (exDocAge 1),
               TxOp.set (asciiBytes ("k2")) exDocBadGeo], TxOp.key op = k) ∧
      transaction_spec [] []
        [TxOp.set (asciiBytes ("k1")) (exDocAge 1), TxOp.set (asciiBytes ("k2")) exDocBadGeo]
        exCfgLoc = ([], some k)) ∧
    transaction_spec [] [] [TxOp.set (asciiBytes ("k1")) (exDocAge 1)] exCfgLoc =
      ([(asciiBytes ("k1"), some (exDocAge 1))], none) :=
  ⟨by decide,
   (transaction_atomic_refinement []
      [TxOp.set (asciiBytes ("k1")) (exDocAge 1), TxOp.set (asciiBytes ("k2")) exDocBadGeo]
      exCfgLoc).2 (.txOpFailed (asciiBytes ("k2"))) (by decide),
   (transaction_atomic_refinement [] [TxOp.set (asciiBytes ("k1")) (exDocAge 1)] exCfgLoc).1
     [(asciiBytes ("k1"), some (exDocAge 1))] (by decide)⟩

/-! ## Counterexamples for C3, C6, C8. -/

/-- Counterexample for C3 as stated: the signed tag's byte order disagrees
with the natural order — `-1 < 0` but the encoding of `-1`
(`01 ff…ff`, two's complement) sorts after the encoding of `0`
(`01 00…00`), so byte-lexicographic order is not order-consistent for the
signed-integer tag. -/
theorem encode_order_counterexample :
    encode_sorted_value (.num (.int (-1))) = .ok (1 :: List.replicate 8 255) ∧
    encode_sorted_value (.num (.int 0)) = .ok (1 :: List.replicate 8 0) ∧
    ((-1 : Int) < 0) ∧
    bytesLt (1 :: List.replicate 8 255) (1 :: List.replicate 8 0) = false ∧
    bytesLt (1 :: List.replicate 8 0) (1 :: List.replicate 8 255) = true := by
  decide

/-- Counterexample for C6 as stated: after the single write
`set(b, {city: "Paris:x"})` — whose equality-index entry
`__field_index__city:Paris:x:b` is prefix-matched by the scan for
`(city, "Paris")` — the query `Eq(city, "Paris")` returns that document even
though its value at `city` is `"Paris:x" ≠ "Paris"`: the `Eq` branch
performs no scalar-equality re-check. -/
theorem eq_no_recheck_counterexample :
    set_key [] (asciiBytes ("b")) exDocParisColon exCfgCity = .ok exStoreCity ∧
    execute_ast_query hav0 exStoreCity
      (.eq (asciiBytes ("city")) (.str (asciiBytes ("Paris"))) .string)
      none none none exCfgCity = .ok [exDocParisColon] ∧
    getValueByPath exDocParisColon (asciiBytes ("city")) =
      some (.str (asciiBytes ("Paris:x"))) ∧
    JValue.str (asciiBytes ("Paris:x")) ≠ .str (asciiBytes ("Paris")) := by
  decide

/-- Counterexample for C8 as stated: `set_key` performs no reserved-prefix
validation, so a caller-supplied key beginning with `__field_index__` is
stored as a primary document under a reserved prefix. -/
theorem reserved_primary_key_counterexample :
    set_key [] (asciiBytes ("__field_index__evil")) (.obj .nil) ⟨[], [], []⟩ =
      .ok [(asciiBytes ("__field_index__evil"), some (.obj .nil))] ∧
    reservedPfx (asciiBytes ("__field_index__evil")) = true := by
  decide

/-! ## Shape of the staged index mutations. -/

theorem reservedPfx_field_index_key (p v k : Bytes) :
    reservedPfx (get_field_index_key p v k) = true := by
  have h1 : startsWith (get_field_index_key p v k) FIELD_INDEX_PFX = true := by
    simp only [get_field_index_key, List.append_assoc]
    exact startsWith_append_self _ _
  simp [reservedPfx, h1]

theorem reservedPfx_field_sorted_key (p : Bytes) (enc : Bytes) (k : Bytes) :
    reservedPfx (get_field_sorted_index_key p enc k) = true := by
  have h1 : startsWith (get_field_sorted_index_key p enc k) FIELD_SORTED_INDEX_PFX = true := by
    simp only [get_field_sorted_index_key, List.append_assoc]
    exact startsWith_append_self _ _
  simp [reservedPfx, h1]

theorem reservedPfx_geo_key (p gh k : Bytes) :
    reservedPfx (get_geo_sorted_index_key p gh k) = true := by
  have h1 : startsWith (get_geo_sorted_index_key p gh k) GEO_SORTED_INDEX_PFX = true := by
    simp only [get_geo_sorted_index_key, List.append_assoc]
    exact startsWith_append_self _ _
  simp [reservedPfx, h1]

theorem length_lt_field_index_key (p v k : Bytes) :
    k.length < (get_field_index_key p v k).length := by
  have h15 : FIELD_INDEX_PFX.length = 15 := rfl
  simp only [get_field_index_key, List.length_append]
  omega

theorem length_lt_field_sorted_key (p enc k : Bytes) :
    k.length < (get_field_sorted_index_key p enc k).length := by
  have h16 : FIELD_SORTED_INDEX_PFX.length = 16 := rfl
  simp only [get_field_sorted_index_key, List.length_append]
  omega

theorem length_lt_geo_key (p gh k : Bytes) :
    k.length < (get_geo_sorted_index_key p gh k).length := by
  have h14 : GEO_SORTED_INDEX_PFX.length = 14 := rfl
  simp only [get_geo_sorted_index_key, List.length_append]
  omega

theorem index_obj_cons_inv (key cur f : Bytes) (fv : JValue) (tl : JObj) (cfg : DbConfig)
    (ms : List Mut) (h : index_obj_fields key cur (.cons f fv tl) cfg = .ok ms) :
    ∃ geo sub rest, ms = geo ++ sub ++ rest ∧
      index_value_recursive key (joinPath cur f) fv cfg = .ok sub ∧
      index_obj_fields key cur tl cfg = .ok rest ∧
      ((cfg.geo_indexed_fields.contains (joinPath cur f) = false ∧ geo = []) ∨
       (cfg.geo_indexed_fields.contains (joinPath cur f) = true ∧ parseGeoPoint fv = none ∧
         geo = []) ∨
       (∃ gp gh, cfg.geo_indexed_fields.contains (joinPath cur f) = true ∧
         parseGeoPoint fv = some gp ∧ gh_encode gp.2 gp.1 GEOHASH_PRECISION = .ok gh ∧
         geo = [.ins (get_geo_sorted_index_key (joinPath cur f) gh key)])) := by
  simp only [index_obj_fields] at h
  by_cases hg : cfg.geo_indexed_fields.contains (joinPath cur f)
  · rw [if_pos hg] at h
    cases hp : parseGeoPoint fv with
    | none =>
      simp only [hp, pure_bind] at h
      cases hsub : index_value_recursive key (joinPath cur f) fv cfg with
      | error esub => simp only [hsub, exBind_error] at h; cases h
      | ok sub =>
        simp only [hsub, pure_bind, exBind_ok] at h
        cases hrest : index_obj_fields key cur tl cfg with
        | error erest => simp only [hrest, exBind_error] at h; cases h
        | ok rest =>
          simp only [hrest, pure_bind, exBind_ok] at h
          cases h
          exact ⟨[], sub, rest, rfl, rfl, rfl, Or.inr (Or.inl ⟨hg, rfl, rfl⟩)⟩
    | some gp =>
      simp only [hp] at h
      cases hh : gh_encode gp.2 gp.1 GEOHASH_PRECISION with
      | error eg => simp only [hh, exBind_error] at h; cases h
      | ok gh =>
        simp only [hh, pure_bind, exBind_ok] at h
        cases hsub : index_value_recursive key (joinPath cur f) fv cfg with
        | error esub => simp only [hsub, exBind_error] at h; cases h
        | ok sub =>
          simp only [hsub, pure_bind, exBind_ok] at h
          cases hrest : index_obj_fields key cur tl cfg with
          | error erest => simp only [hrest, exBind_error] at h; cases h
          | ok rest =>
            simp only [hrest, pure_bind, exBind_ok] at h
            cases h
            exact ⟨[.ins (get_geo_sorted_index_key (joinPath cur f) gh key)], sub, rest, rfl,
              rfl, rfl, Or.inr (Or.inr ⟨gp, gh, hg, rfl, hh, rfl⟩)⟩
  · rw [if_neg hg] at h
    simp only [pure_bind] at h
    cases hsub : index_value_recursive key (joinPath cur f) fv cfg with
    | error esub => simp only [hsub, exBind_error] at h; cases h
    | ok sub =>
      simp only [hsub, pure_bind, exBind_ok] at h
      cases hrest : index_obj_fields key cur tl cfg with
      | error erest => simp only [hrest, exBind_error] at h; cases h
      | ok rest =>
        simp only [hrest, pure_bind, exBind_ok] at h
        cases h
        exact ⟨[], sub, rest, rfl, rfl, rfl,
          Or.inl ⟨by simpa using hg, rfl⟩⟩

theorem index_arr_cons_inv (key cur : Bytes) (i : Nat) (x : JValue) (tl : JArr) (cfg : DbConfig)
    (ms : List Mut) (h : index_arr_elems key cur i (.cons x tl) cfg = .ok ms) :
    ∃ sub rest, ms = sub ++
      (if cfg.hash_indexed_fields.contains cur && !(x.isObj || x.isArr) then
        [Mut.ins (get_field_index_key cur (valueText x) key)] else []) ++
      (if cfg.sorted_indexed_fields.contains cur then
        match encode_sorted_value x with
        | .ok enc => [Mut.ins (get_field_sorted_index_key cur enc key)]
        | .error _ => []
      else []) ++ rest ∧
      index_value_recursive key (cur ++ [46] ++ natDec i) x cfg = .ok sub ∧
      index_arr_elems key cur (i + 1) tl cfg = .ok rest := by
  simp only [index_arr_elems] at h
  cases hsub : index_value_recursive key (cur ++ [46] ++ natDec i) x cfg with
  | error esub => simp only [hsub, exBind_error] at h; cases h
  | ok sub =>
    simp only [hsub, pure_bind, exBind_ok] at h
    cases hrest : index_arr_elems key cur (i + 1) tl cfg with
    | error erest => simp only [hrest, exBind_error] at h; cases h
    | ok rest =>
      simp only [hrest, pure_bind, exBind_ok] at h
      cases h
      exact ⟨sub, rest, by simp [List.append_assoc], rfl, rfl⟩

theorem prim_create_shape (key cur : Bytes) (v : JValue) (cfg : DbConfig) :
    ∀ m ∈ ((if cfg.hash_indexed_fields.contains cur then
        [Mut.ins (get_field_index_key cur (valueText v) key)] else []) ++
      (if cfg.sorted_indexed_fields.contains cur then
        match encode_sorted_value v with
        | .ok enc => [Mut.ins (get_field_sorted_index_key cur enc key)]
        | .error _ => []
      else [])),
      ∃ kk, m = .ins kk ∧ reservedPfx kk = true ∧ key.length < kk.length := by
  intro m hm
  rcases List.mem_append.mp hm with hm | hm
  · split at hm
    · simp only [List.mem_singleton] at hm
      exact ⟨_, hm, reservedPfx_field_index_key _ _ _, length_lt_field_index_key _ _ _⟩
    · simp at hm
  · split at hm
    · split at hm
      · simp only [List.mem_singleton] at hm
        exact ⟨_, hm, reservedPfx_field_sorted_key _ _ _, length_lt_field_sorted_key _ _ _⟩
      · simp at hm
    · simp at hm

mutual
theorem create_shape_val (key cur : Bytes) (v : JValue) (cfg : DbConfig) :
    ∀ ms, index_value_recursive key cur v cfg = .ok ms →
      ∀ m ∈ ms, ∃ kk, m = .ins kk ∧ reservedPfx kk = true ∧ key.length < kk.length
  | ms, h => by
    match v with
    | .obj fs => exact create_shape_obj key cur fs cfg ms h
    | .arr xs => exact create_shape_arr key cur 0 xs cfg ms h
    | .null =>
      simp only [index_value_recursive] at h
      cases h
      exact prim_create_shape key cur .null cfg
    | .bool b =>
      simp only [index_value_recursive] at h
      cases h
      exact prim_create_shape key cur (.bool b) cfg
    | .num n =>
      simp only [index_value_recursive] at h
      cases h
      exact prim_create_shape key cur (.num n) cfg
    | .str s =>
      simp only [index_value_recursive] at h
      cases h
      exact prim_create_shape key cur (.str s) cfg
theorem create_shape_obj (key cur : Bytes) (fs : JObj) (cfg : DbConfig) :
    ∀ ms, index_obj_fields key cur fs cfg = .ok ms →
      ∀ m ∈ ms, ∃ kk, m = .ins kk ∧ reservedPfx kk = true ∧ key.length < kk.length
  | ms, h => by
    match fs with
    | .nil =>
      simp only [index_obj_fields] at h
      cases h
      intro m hm
      simp at hm
    | .cons f fv tl =>
      obtain ⟨geo, sub, rest, rfl, hsub, hrest, hbr⟩ := index_obj_cons_inv key cur f fv tl cfg ms h
      intro m hm
      rcases List.mem_append.mp hm with hm | hm
      rcases List.mem_append.mp hm with hm | hm
      · rcases hbr with ⟨_, rfl⟩ | ⟨_, _, rfl⟩ | ⟨gp, gh, _, _, _, rfl⟩
        · simp at hm
        · simp at hm
        · simp only [List.mem_singleton] at hm
          exact ⟨_, hm, reservedPfx_geo_key _ _ _, length_lt_geo_key _ _ _⟩
      · exact create_shape_val key (joinPath cur f) fv cfg sub hsub m hm
      · exact create_shape_obj key cur tl cfg rest hrest m hm
theorem create_shape_arr (key cur : Bytes) (i : Nat) (xs : JArr) (cfg : DbConfig) :
    ∀ ms, index_arr_elems key cur i xs cfg = .ok ms →
      ∀ m ∈ ms, ∃ kk, m = .ins kk ∧ reservedPfx kk = true ∧ key.length < kk.length
  | ms, h => by
    match xs with
    | .nil =>
      simp only [index_arr_elems] at h
      cases h
      intro m hm
      simp at hm
    | .cons x tl =>
      obtain ⟨sub, rest, rfl, hsub, hrest⟩ := index_arr_cons_inv key cur i x tl cfg ms h
      intro m hm
      rcases List.mem_append.mp hm with hm | hm
      rcases List.mem_append.mp hm with hm | hm
      rcases List.mem_append.mp hm with hm | hm
      · exact create_shape_val key (cur ++ [46] ++ natDec i) x cfg sub hsub m hm
      · split at hm
        · simp only [List.mem_singleton] at hm
          exact ⟨_, hm, reservedPfx_field_index_key _ _ _, length_lt_field_index_key _ _ _⟩
        · simp at hm
      · split at hm
        · split at hm
          · simp only [List.mem_singleton] at hm
            exact ⟨_, hm, reservedPfx_field_sorted_key _ _ _, length_lt_field_sorted_key _ _ _⟩
          · simp at hm
        · simp at hm
      · exact create_shape_arr key cur (i + 1) tl cfg rest hrest m hm
end

theorem remove_obj_cons_inv (key cur f : Bytes) (fv : JValue) (tl : JObj) (cfg : DbConfig)
    (ms : List Mut) (h : remove_obj_fields key cur (.cons f fv tl) cfg = .ok ms) :
    ∃ geo sub rest, ms = geo ++ sub ++ rest ∧
      remove_indices_recursive key (joinPath cur f) fv cfg = .ok sub ∧
      remove_obj_fields key cur tl cfg = .ok rest ∧
      ((cfg.geo_indexed_fields.contains (joinPath cur f) = false ∧ geo = []) ∨
       (cfg.geo_indexed_fields.contains (joinPath cur f) = true ∧ parseGeoPoint fv = none ∧
         geo = []) ∨
       (∃ gp gh, cfg.geo_indexed_fields.contains (joinPath cur f) = true ∧
         parseGeoPoint fv = some gp ∧ gh_encode gp.2 gp.1 GEOHASH_PRECISION = .ok gh ∧
         geo = [.del (get_geo_sorted_index_key (joinPath cur f) gh key)])) := by
  simp only [remove_obj_fields] at h
  by_cases hg : cfg.geo_indexed_fields.contains (joinPath cur f)
  · rw [if_pos hg] at h
    cases hp : parseGeoPoint fv with
    | none =>
      simp only [hp, pure_bind] at h
      cases hsub : remove_indices_recursive key (joinPath cur f) fv cfg with
      | error esub => simp only [hsub, exBind_error] at h; cases h
      | ok sub =>
        simp only [hsub, pure_bind, exBind_ok] at h
        cases hrest : remove_obj_fields key cur tl cfg with
        | error erest => simp only [hrest, exBind_error] at h; cases h
        | ok rest =>
          simp only [hrest, pure_bind, exBind_ok] at h
          cases h
          exact ⟨[], sub, rest, rfl, rfl, rfl, Or.inr (Or.inl ⟨hg, rfl, rfl⟩)⟩
    | some gp =>
      simp only [hp] at h
      cases hh : gh_encode gp.2 gp.1 GEOHASH_PRECISION with
      | error eg => simp only [hh, exBind_error] at h; cases h
      | ok gh =>
        simp only [hh, pure_bind, exBind_ok] at h
        cases hsub : remove_indices_recursive key (joinPath cur f) fv cfg with
        | error esub => simp only [hsub, exBind_error] at h; cases h
        | ok sub =>
          simp only [hsub, pure_bind, exBind_ok] at h
          cases hrest : remove_obj_fields key cur tl cfg with
          | error erest => simp only [hrest, exBind_error] at h; cases h
          | ok rest =>
            simp only [hrest, pure_bind, exBind_ok] at h
            cases h
            exact ⟨[.del (get_geo_sorted_index_key (joinPath cur f) gh key)], sub, rest, rfl,
              rfl, rfl, Or.inr (Or.inr ⟨gp, gh, hg, rfl, hh, rfl⟩)⟩
  · rw [if_neg hg] at h
    simp only [pure_bind] at h
    cases hsub : remove_indices_recursive key (joinPath cur f) fv cfg with
    | error esub => simp only [hsub, exBind_error] at h; cases h
    | ok sub =>
      simp only [hsub, pure_bind, exBind_ok] at h
      cases hrest : remove_obj_fields key cur tl cfg with
      | error erest => simp only [hrest, exBind_error] at h; cases h
      | ok rest =>
        simp only [hrest, pure_bind, exBind_ok] at h
        cases h
        exact ⟨[], sub, rest, rfl, rfl, rfl, Or.inl ⟨by simpa using hg, rfl⟩⟩

theorem remove_arr_cons_inv (key cur : Bytes) (i : Nat) (x : JValue) (tl : JArr) (cfg : DbConfig)
    (ms : List Mut) (h : remove_arr_elems key cur i (.cons x tl) cfg = .ok ms) :
    ∃ sub rest, ms = sub ++
      (if cfg.hash_indexed_fields.contains cur && !(x.isObj || x.isArr) then
        [Mut.del (get_field_index_key cur (valueText x) key)] else []) ++
      (if cfg.sorted_indexed_fields.contains cur then
        match encode_sorted_value x with
        | .ok enc => [Mut.del (get_field_sorted_index_key cur enc key)]
        | .error _ => []
      else []) ++ rest ∧
      remove_indices_recursive key (cur ++ [46] ++ natDec i) x cfg = .ok sub ∧
      remove_arr_elems key cur (i + 1) tl cfg = .ok rest := by
  simp only [remove_arr_elems] at h
  cases hsub : remove_indices_recursive key (cur ++ [46] ++ natDec i) x cfg with
  | error esub => simp only [hsub, exBind_error] at h; cases h
  | ok sub =>
    simp only [hsub, pure_bind, exBind_ok] at h
    cases hrest : remove_arr_elems key cur (i + 1) tl cfg with
    | error erest => simp only [hrest, exBind_error] at h; cases h
    | ok rest =>
      simp only [hrest, pure_bind, exBind_ok] at h
      cases h
      exact ⟨sub, rest, by simp [List.append_assoc], rfl, rfl⟩

theorem prim_remove_shape (key cur : Bytes) (v : JValue) (cfg : DbConfig) :
    ∀ m ∈ ((if cfg.hash_indexed_fields.contains cur then
        [Mut.del (get_field_index_key cur (valueText v) key)] else []) ++
      (if cfg.sorted_indexed_fields.contains cur then
        match encode_sorted_value v with
        | .ok enc => [Mut.del (get_field_sorted_index_key cur enc key)]
        | .error _ => []
      else [])),
      ∃ kk, m = .del kk := by
  intro m hm
  rcases List.mem_append.mp hm with hm | hm
  · split at hm
    · simp only [List.mem_singleton] at hm
      exact ⟨_, hm⟩
    · simp at hm
  · split at hm
    · split at hm
      · simp only [List.mem_singleton] at hm
        exact ⟨_, hm⟩
      · simp at hm
    · simp at hm

mutual
theorem remove_shape_val (key cur : Bytes) (v : JValue) (cfg : DbConfig) :
    ∀ ms, remove_indices_recursive key cur v cfg = .ok ms → ∀ m ∈ ms, ∃ kk, m = .del kk
  | ms, h => by
    match v with
    | .obj fs => exact remove_shape_obj key cur fs cfg ms h
    | .arr xs => exact remove_shape_arr key cur 0 xs cfg ms h
    | .null =>
      simp only [remove_indices_recursive] at h
      cases h
      exact prim_remove_shape key cur .null cfg
    | .bool b =>
      simp only [remove_indices_recursive] at h
      cases h
      exact prim_remove_shape key cur (.bool b) cfg
    | .num n =>
      simp only [remove_indices_recursive] at h
      cases h
      exact prim_remove_shape key cur (.num n) cfg
    | .str s =>
      simp only [remove_indices_recursive] at h
      cases h
      exact prim_remove_shape key cur (.str s) cfg
theorem remove_shape_obj (key cur : Bytes) (fs : JObj) (cfg : DbConfig) :
    ∀ ms, remove_obj_fields key cur fs cfg = .ok ms → ∀ m ∈ ms, ∃ kk, m = .del kk
  | ms, h => by
    match fs with
    | .nil =>
      simp only [remove_obj_fields] at h
      cases h
      intro m hm
      simp at hm
    | .cons f fv tl =>
      obtain ⟨geo, sub, rest, rfl, hsub, hrest, hbr⟩ := remove_obj_cons_inv key cur f fv tl cfg ms h
      intro m hm
      rcases List.mem_append.mp hm with hm | hm
      rcases List.mem_append.mp hm with hm | hm
      · rcases hbr with ⟨_, rfl⟩ | ⟨_, _, rfl⟩ | ⟨gp, gh, _, _, _, rfl⟩
        · simp at hm
        · simp at hm
        · simp only [List.mem_singleton] at hm
          exact ⟨_, hm⟩
      · exact remove_shape_val key (joinPath cur f) fv cfg sub hsub m hm
      · exact remove_shape_obj key cur tl cfg rest hrest m hm
theorem remove_shape_arr (key cur : Bytes) (i : Nat) (xs : JArr) (cfg : DbConfig) :
    ∀ ms, remove_arr_elems key cur i xs cfg = .ok ms → ∀ m ∈ ms, ∃ kk, m = .del kk
  | ms, h => by
    match xs with
    | .nil =>
      simp only [remove_arr_elems] at h
      cases h
      intro m hm
      simp at hm
    | .cons x tl =>
      obtain ⟨sub, rest, rfl, hsub, hrest⟩ := remove_arr_cons_inv key cur i x tl cfg ms h
      intro m hm
      rcases List.mem_append.mp hm with hm | hm
      rcases List.mem_append.mp hm with hm | hm
      rcases List.mem_append.mp hm with hm | hm
      · exact remove_shape_val key (cur ++ [46] ++ natDec i) x cfg sub hsub m hm
      · split at hm
        · simp only [List.mem_singleton] at hm
          exact ⟨_, hm⟩
        · simp at hm
      · split at hm
        · split at hm
          · simp only [List.mem_singleton] at hm
            exact ⟨_, hm⟩
          · simp at hm
        · simp at hm
      · exact remove_shape_arr key cur (i + 1) tl cfg rest hrest m hm
end

/-! ## C8 (amended): reserved-prefix entries stay index entries. -/

theorem mem_storeInsert : ∀ (S : Store) (k : Bytes) (p : Option JValue)
    (e : Bytes × Option JValue), e ∈ storeInsert S k p → e = (k, p) ∨ e ∈ S
  | [], k, p, e, h => by
    simp [storeInsert] at h
    exact Or.inl h
  | (k2, p2) :: rest, k, p, e, h => by
    simp only [storeInsert] at h
    by_cases h1 : k = k2
    · rw [if_pos h1] at h
      rcases List.mem_cons.mp h with h | h
      · exact Or.inl h
      · exact Or.inr (List.mem_cons_of_mem _ h)
    · rw [if_neg h1] at h
      by_cases h2 : bytesLt k k2
      · rw [if_pos h2] at h
        rcases List.mem_cons.mp h with h | h
        · exact Or.inl h
        · exact Or.inr h
      · rw [if_neg h2] at h
        rcases List.mem_cons.mp h with h | h
        · exact Or.inr (by simp [h])
        · rcases mem_storeInsert rest k p e h with h | h
          · exact Or.inl h
          · exact Or.inr (List.mem_cons_of_mem _ h)

theorem mem_storeRemove (S : Store) (k : Bytes) (e : Bytes × Option JValue)
    (h : e ∈ storeRemove S k) : e ∈ S := by
  simp only [storeRemove] at h
  exact (List.mem_filter.mp h).1

theorem mem_applyMuts : ∀ (ms : List Mut) (S : Store) (e : Bytes × Option JValue),
    e ∈ applyMuts S ms → e ∈ S ∨ ∃ kk, Mut.ins kk ∈ ms ∧ e = (kk, none)
  | [], S, e, h => Or.inl h
  | m :: ms, S, e, h => by
    rw [applyMuts_cons] at h
    rcases mem_applyMuts ms (applyMut S m) e h with h | ⟨kk, hkk, rfl⟩
    · cases m with
      | ins k =>
        rcases mem_storeInsert S k none e h with h | h
        · exact Or.inr ⟨k, List.mem_cons_self _ _, h⟩
        · exact Or.inl h
      | del k => exact Or.inl (mem_storeRemove S k e h)
    · exact Or.inr ⟨kk, List.mem_cons_of_mem _ hkk, rfl⟩

theorem set_key_internal_inv (S : Store) (k : Bytes) (v : JValue) (cfg : DbConfig) (S' : Store)
    (h : set_key_internal S k v cfg = .ok S') :
    ∃ rem crea, (∀ m ∈ rem, ∃ kk, m = Mut.del kk) ∧
      index_value_recursive k [] v cfg = .ok crea ∧
      S' = applyMuts (storeInsert (applyMuts S rem) k (some v)) crea := by
  unfold set_key_internal at h
  cases hold : storeGet S k with
  | none =>
    simp only [hold, pure_bind] at h
    cases hcrea : index_value_recursive k [] v cfg with
    | error ec => simp only [hcrea, exBind_error] at h; cases h
    | ok crea =>
      simp only [hcrea, pure_bind, exBind_ok] at h
      cases h
      exact ⟨[], crea, by simp, rfl, rfl⟩
  | some pl =>
    cases pl with
    | none =>
      simp only [hold, pure_bind] at h
      cases hcrea : index_value_recursive k [] v cfg with
      | error ec => simp only [hcrea, exBind_error] at h; cases h
      | ok crea =>
        simp only [hcrea, pure_bind, exBind_ok] at h
        cases h
        exact ⟨[], crea, by simp, rfl, rfl⟩
    | some oldVal =>
      simp only [hold] at h
      cases hrem : remove_indices_recursive k [] oldVal cfg with
      | error er => simp only [hrem, exBind_error] at h; cases h
      | ok rem =>
        simp only [hrem, pure_bind, exBind_ok] at h
        cases hcrea : index_value_recursive k [] v cfg with
        | error ec => simp only [hcrea, exBind_error] at h; cases h
        | ok crea =>
          simp only [hcrea, pure_bind, exBind_ok] at h
          cases h
          exact ⟨rem, crea, remove_shape_val k [] oldVal cfg rem hrem, rfl, rfl⟩

theorem delete_key_internal_inv (S : Store) (k : Bytes) (cfg : DbConfig) (S' : Store)
    (h : delete_key_internal S k cfg = .ok S') :
    S' = S ∨ ∃ rem, (∀ m ∈ rem, ∃ kk, m = Mut.del kk) ∧
      S' = storeRemove (applyMuts S rem) k := by
  unfold delete_key_internal at h
  cases hold : storeGet S k with
  | none =>
    simp only [hold] at h
    cases h
    exact Or.inl rfl
  | some pl =>
    cases pl with
    | none =>
      simp only [hold, pure_bind] at h
      cases h
      exact Or.inr ⟨[], by simp, rfl⟩
    | some v =>
      simp only [hold] at h
      cases hrem : remove_indices_recursive k [] v cfg with
      | error er => simp only [hrem, exBind_error] at h; cases h
      | ok rem =>
        simp only [hrem, pure_bind, exBind_ok] at h
        cases h
        exact Or.inr ⟨rem, remove_shape_val k [] v cfg rem hrem, rfl⟩

theorem set_preserves_inv (S S' : Store) (k : Bytes) (v : JValue) (cfg : DbConfig)
    (hk : reservedPfx k = false) (hI : reservedEntriesEmpty S)
    (h : set_key S k v cfg = .ok S') : reservedEntriesEmpty S' := by
  obtain ⟨rem, crea, hremshape, hcrea, rfl⟩ := set_key_internal_inv S k v cfg S' h
  intro e he hres
  rcases mem_applyMuts crea _ e he with he1 | ⟨kk, hkk, rfl⟩
  · rcases mem_storeInsert _ k (some v) e he1 with rfl | he2
    · simp only [] at hres
      rw [hk] at hres
      cases hres
    · rcases mem_applyMuts rem S e he2 with he3 | ⟨kk, hkk, rfl⟩
      · exact hI e he3 hres
      · obtain ⟨kk2, hdel⟩ := hremshape _ hkk
        cases hdel
  · rfl

theorem delete_preserves_inv (S S' : Store) (k : Bytes) (cfg : DbConfig)
    (hI : reservedEntriesEmpty S) (h : delete_key S k cfg = .ok S') :
    reservedEntriesEmpty S' := by
  rcases delete_key_internal_inv S k cfg S' h with rfl | ⟨rem, hremshape, rfl⟩
  · exact hI
  · intro e he hres
    rcases mem_applyMuts rem S e (mem_storeRemove _ k e he) with he2 | ⟨kk, hkk, rfl⟩
    · exact hI e he2 hres
    · obtain ⟨kk2, hdel⟩ := hremshape _ hkk
      cases hdel

theorem batch_preserves_inv : ∀ (items : List (Bytes × JValue)) (S S' : Store) (cfg : DbConfig),
    (∀ i ∈ items, reservedPfx i.1 = false) → reservedEntriesEmpty S →
    batch_set S items cfg = .ok S' → reservedEntriesEmpty S'
  | [], S, S', cfg, _, hI, h => by
    simp only [batch_set] at h
    cases h
    exact hI
  | (k, v) :: rest, S, S', cfg, hks, hI, h => by
    simp only [batch_set] at h
    cases hset : set_key_internal S k v cfg with
    | error e => simp only [hset] at h; cases h
    | ok S1 =>
      simp only [hset] at h
      exact batch_preserves_inv rest S1 S' cfg (fun i hi => hks i (List.mem_cons_of_mem _ hi))
        (set_preserves_inv S S1 k v cfg (hks (k, v) (List.mem_cons_self _ _)) hI hset) h

theorem tx_preserves_inv : ∀ (ops : List TxOp) (S S' : Store) (cfg : DbConfig),
    (∀ op ∈ ops, reservedPfx op.key = false) → reservedEntriesEmpty S →
    execute_transaction S ops cfg = .ok S' → reservedEntriesEmpty S'
  | [], S, S', cfg, _, hI, h => by
    simp only [execute_transaction] at h
    cases h
    exact hI
  | op :: rest, S, S', cfg, hks, hI, h => by
    simp only [execute_transaction] at h
    cases hstep : txStepRaw S cfg op with
    | error e => simp only [hstep] at h; cases h
    | ok S1 =>
      simp only [hstep] at h
      have hkop := hks op (List.mem_cons_self _ _)
      have hI1 : reservedEntriesEmpty S1 := by
        cases op with
        | set k v => exact set_preserves_inv S S1 k v cfg hkop hI hstep
        | del k => exact delete_preserves_inv S S1 k cfg hI hstep
      exact tx_preserves_inv rest S1 S' cfg (fun o ho => hks o (List.mem_cons_of_mem _ ho)) hI1 h

theorem import_preserves_inv : ∀ (data : List (Bytes × JValue)) (S S' : Store)
    (oe : Option DbErr) (cfg : DbConfig),
    (∀ i ∈ data, reservedPfx i.1 = false) → reservedEntriesEmpty S →
    import_data S data cfg = (S', oe) → reservedEntriesEmpty S'
  | [], S, S', oe, cfg, _, hI, h => by
    simp only [import_data] at h
    cases h
    exact hI
  | (k, v) :: rest, S, S', oe, cfg, hks, hI, h => by
    simp only [import_data] at h
    cases hset : set_key S k v cfg with
    | error e =>
      simp only [hset] at h
      cases h
      exact hI
    | ok S1 =>
      simp only [hset] at h
      exact import_preserves_inv rest S1 S' oe cfg
        (fun i hi => hks i (List.mem_cons_of_mem _ hi))
        (set_preserves_inv S S1 k v cfg (hks (k, v) (List.mem_cons_self _ _)) hI hset) h

/-- C8 (amended).  In every store reachable through the public write surface
with caller-supplied keys outside the reserved prefixes, every entry under a
reserved prefix carries the empty payload — it is an index entry, never a
primary document.  (The engine itself enforces nothing: the counterexample
shows a reserved-prefixed caller key stored as a primary document.) -/
theorem reserved_payload_invariant_amended (S : Store) (h : ReachableNR S) :
    reservedEntriesEmpty S := by
  induction h with
  | empty => intro e he hres; simp at he
  | set S S' k v cfg hr hk hset ih => exact set_preserves_inv S S' k v cfg hk ih hset
  | batch S S' items cfg hr hks hb ih => exact batch_preserves_inv items S S' cfg hks ih hb
  | tx S S' ops cfg hr hks ht ih => exact tx_preserves_inv ops S S' cfg hks ih ht
  | imp S S' data oe cfg hr hks himp ih => exact import_preserves_inv data S S' oe cfg hks ih himp
  | del S S' k cfg hr hd ih => exact delete_preserves_inv S S' k cfg ih hd

/-- Witness for C8 (amended): the one-write store of the C6 scenario is
reachable with a non-reserved key, so its reserved entries all carry the
empty payload. -/
theorem reserved_payload_invariant_amended_witness :
    reservedEntriesEmpty exStoreCity :=
  reserved_payload_invariant_amended exStoreCity
    (ReachableNR.set [] exStoreCity (asciiBytes ("b")) exDocParisColon exCfgCity
      ReachableNR.empty (by decide) (by decide))

/-! ## C4: `set(k, v); delete(k)` leaves no reserved entry for `k`.

The removal walk mirrors the creation walk exactly (same traversal, same
keys, removals instead of inserts), so deleting the freshly written value
removes precisely the entries its write created. -/

mutual
theorem parallel_val (key cur : Bytes) (v : JValue) (cfg : DbConfig) :
    ∀ ms, index_value_recursive key cur v cfg = .ok ms →
      remove_indices_recursive key cur v cfg = .ok (ms.map mutToDel)
  | ms, h => by
    match v with
    | .obj fs => exact parallel_obj key cur fs cfg ms h
    | .arr xs => exact parallel_arr key cur 0 xs cfg ms h
    | .null =>
      simp only [index_value_recursive] at h
      cases h
      simp only [remove_indices_recursive, List.map_append]
      cases henc : encode_sorted_value (JValue.null) <;>
        simp only [henc] <;> (try split_ifs) <;> simp [mutToDel]
    | .bool b =>
      simp only [index_value_recursive] at h
      cases h
      simp only [remove_indices_recursive, List.map_append]
      cases henc : encode_sorted_value (JValue.bool b) <;>
        simp only [henc] <;> (try split_ifs) <;> simp [mutToDel]
    | .num n =>
      simp only [index_value_recursive] at h
      cases h
      simp only [remove_indices_recursive, List.map_append]
      cases henc : encode_sorted_value (JValue.num n) <;>
        simp only [henc] <;> (try split_ifs) <;> simp [mutToDel]
    | .str s =>
      simp only [index_value_recursive] at h
      cases h
      simp only [remove_indices_recursive, List.map_append]
      cases henc : encode_sorted_value (JValue.str s) <;>
        simp only [henc] <;> (try split_ifs) <;> simp [mutToDel]
theorem parallel_obj (key cur : Bytes) (fs : JObj) (cfg : DbConfig) :
    ∀ ms, index_obj_fields key cur fs cfg = .ok ms →
      remove_obj_fields key cur fs cfg = .ok (ms.map mutToDel)
  | ms, h => by
    match fs with
    | .nil =>
      simp only [index_obj_fields] at h
      cases h
      simp [remove_obj_fields]
    | .cons f fv tl =>
      obtain ⟨geo, sub, rest, rfl, hsub, hrest, hbr⟩ := index_obj_cons_inv key cur f fv tl cfg ms h
      have hsubR := parallel_val key (joinPath cur f) fv cfg sub hsub
      have hrestR := parallel_obj key cur tl cfg rest hrest
      rcases hbr with ⟨hgf, rfl⟩ | ⟨hgt, hpn, rfl⟩ | ⟨gp, gh, hgt, hps, hhe, rfl⟩
      · simp [remove_obj_fields, hsubR, hrestR, pure_bind, List.map_append]
        intro hmem
        exact absurd hmem (by simpa using hgf)
      · have hmem : joinPath cur f ∈ cfg.geo_indexed_fields := by simpa using hgt
        simp [remove_obj_fields, hmem, hpn, hsubR, hrestR, pure_bind, List.map_append]
      · have hmem : joinPath cur f ∈ cfg.geo_indexed_fields := by simpa using hgt
        simp [remove_obj_fields, hmem, hps, hhe, hsubR, hrestR, pure_bind, List.map_append,
          mutToDel]
theorem parallel_arr (key cur : Bytes) (i : Nat) (xs : JArr) (cfg : DbConfig) :
    ∀ ms, index_arr_elems key cur i xs cfg = .ok ms →
      remove_arr_elems key cur i xs cfg = .ok (ms.map mutToDel)
  | ms, h => by
    match xs with
    | .nil =>
      simp only [index_arr_elems] at h
      cases h
      simp [remove_arr_elems]
    | .cons x tl =>
      obtain ⟨sub, rest, rfl, hsub, hrest⟩ := index_arr_cons_inv key cur i x tl cfg ms h
      have hsubR := parallel_val key (cur ++ [46] ++ natDec i) x cfg sub hsub
      have hrestR := parallel_arr key cur (i + 1) tl cfg rest hrest
      cases henc : encode_sorted_value x <;>
        simp only [remove_arr_elems, hsubR, hrestR, henc, pure_bind, exBind_ok,
          List.map_append] <;>
        (try split_ifs) <;> simp [mutToDel]
end

theorem mutToDel_key (m : Mut) : (mutToDel m).key = m.key := by
  cases m <;> rfl

theorem any_map_mutToDel (ms : List Mut) (K : Bytes) :
    (ms.map mutToDel).any (fun m => m.key == K) = ms.any (fun m => m.key == K) := by
  induction ms with
  | nil => rfl
  | cons m rest ih =>
    simp only [List.map_cons, List.any_cons]
    rw [ih]
    congr 1
    cases m <;> rfl

/-- C4.  For every primary key `k`, document `v` and index configuration,
starting from a store with no reserved-prefix entry whose primary-key
fragment is `k`: after a successful `set(k, v)`, `delete(k)` succeeds and the
resulting store again has no entry under `__field_index__`,
`__field_sorted__` or `__geo_sorted__` whose primary-key fragment is `k`. -/
theorem set_then_delete_no_reserved_residue (S : Store) (cfg : DbConfig) (k : Bytes)
    (v : JValue) (S1 : Store) (hres : noReservedResidue S k)
    (hset : set_key S k v cfg = .ok S1) :
    ∃ S2, delete_key S1 k cfg = .ok S2 ∧ noReservedResidue S2 k := by
  obtain ⟨rem, crea, hremshape, hcrea, rfl⟩ := set_key_internal_inv S k v cfg S1 hset
  have hcreashape := create_shape_val k [] v cfg crea hcrea
  have hcreaIns : ∀ m ∈ crea, ∃ kk, m = .ins kk := by
    intro m hm
    obtain ⟨kk, he, _, _⟩ := hcreashape m hm
    exact ⟨kk, he⟩
  have hkk_ne : ∀ m ∈ crea, (Mut.key m == k) = false := by
    intro m hm
    obtain ⟨kk, rfl, hrsv, hlen⟩ := hcreashape m hm
    simp only [Mut.key, beq_eq_false_iff_ne]
    intro hEq
    rw [hEq] at hlen
    exact absurd hlen (lt_irrefl _)
  have hany : crea.any (fun m => Mut.key m == k) = false := by
    rw [List.any_eq_false]
    intro m hm
    simp [hkk_ne m hm]
  have hget1 : storeGet (applyMuts (storeInsert (applyMuts S rem) k (some v)) crea) k =
      some (some v) := by
    rw [storeGet_applyMuts_ins crea _ k hcreaIns, hany]
    simp [storeGet_insert]
  have hremv := parallel_val k [] v cfg crea hcrea
  have hdelshape : ∀ m ∈ crea.map mutToDel, ∃ kk, m = Mut.del kk := by
    intro m hm
    obtain ⟨x, hx, rfl⟩ := List.mem_map.mp hm
    obtain ⟨kk, rfl⟩ := hcreaIns x hx
    exact ⟨kk, rfl⟩
  refine ⟨storeRemove (applyMuts (applyMuts (storeInsert (applyMuts S rem) k (some v)) crea)
    (crea.map mutToDel)) k, ?_, ?_⟩
  · simp only [delete_key, delete_key_internal, hget1, hremv, pure_bind, exBind_ok]
  · intro K hK hKres hfrag
    have hnone : storeGet (storeRemove (applyMuts
        (applyMuts (storeInsert (applyMuts S rem) k (some v)) crea) (crea.map mutToDel)) k)
        K = none := by
      rw [storeGet_remove]
      by_cases hKk : K = k
      · rw [if_pos hKk]
      · rw [if_neg hKk]
        rw [storeGet_applyMuts_del (crea.map mutToDel) _ K hdelshape, any_map_mutToDel]
        by_cases hanyK : crea.any (fun m => Mut.key m == K)
        · rw [if_pos hanyK]
        · rw [if_neg hanyK]
          rw [storeGet_applyMuts_ins crea _ K hcreaIns]
          rw [if_neg hanyK]
          rw [storeGet_insert, if_neg hKk]
          rw [storeGet_applyMuts_del rem S K hremshape]
          by_cases hremK : rem.any (fun m => Mut.key m == K)
          · rw [if_pos hremK]
          · rw [if_neg hremK]
            exact (storeGet_none_iff S K).mpr (fun hmem => hres K hmem hKres hfrag)
    exact (storeGet_none_iff _ K).mp hnone hK

/-- Witness for C4 at a concrete input: the empty store, a sorted, hash and
geo configuration all at once, and a document exercising all three index
families. -/
theorem set_then_delete_no_reserved_residue_witness :
    noReservedResidue [] (asciiBytes ("d1")) ∧
    set_key [] (asciiBytes ("d1")) exDocOrigin exCfgLoc = .ok exStoreGeo ∧
    ∃ S2, delete_key exStoreGeo (asciiBytes ("d1")) exCfgLoc = .ok S2 ∧
      noReservedResidue S2 (asciiBytes ("d1")) :=
  ⟨by decide, by decide,
   set_then_delete_no_reserved_residue [] exCfgLoc (asciiBytes ("d1")) exDocOrigin exStoreGeo
     (by decide) (by decide)⟩

/-! ## C6 (amended): `Includes` post-filters, `Eq` does not. -/

theorem exceptMapM_mem {α β : Type} (f : α → Except DbErr β) : ∀ (l : List α) (ys : List β),
    l.mapM f = .ok ys → ∀ y ∈ ys, ∃ x ∈ l, f x = .ok y
  | [], ys, h, y, hy => by
    simp only [List.mapM_nil] at h
    cases h
    simp at hy
  | x :: rest, ys, h, y, hy => by
    rw [List.mapM_cons] at h
    cases hfx : f x with
    | error e => simp only [hfx, exBind_error] at h; cases h
    | ok b =>
      simp only [hfx, pure_bind, exBind_ok] at h
      cases hrest : rest.mapM f with
      | error e => simp only [hrest, exBind_error] at h; cases h
      | ok bs =>
        simp only [hrest, pure_bind, exBind_ok] at h
        cases h
        rcases List.mem_cons.mp hy with rfl | hy2
        · exact ⟨x, List.mem_cons_self _ _, hfx⟩
        · obtain ⟨x2, hx2, hfx2⟩ := exceptMapM_mem f rest bs hrest y hy2
          exact ⟨x2, List.mem_cons_of_mem _ hx2, hfx2⟩

theorem mem_of_mem_page {x : Option Nat} {st : Nat} (L : List JValue) (d : JValue)
    (hd : d ∈ (if st < L.length then (L.drop st).take (x.getD (L.length - st)) else [])) :
    d ∈ L := by
  split at hd
  · exact List.drop_subset st L (List.take_subset _ _ hd)
  · simp at hd

/-- C6 (amended).  The `Includes` branch always post-filters: every returned
document satisfies the membership (or scalar-equality) predicate at the
path.  The `Eq` branch does not re-check: every returned document either
came unchecked from a primary key parsed out of the equality-index prefix
scan (so key collisions can surface non-matching documents — see the
counterexample), or, in the empty-scan fallback on a configured field,
passed the equality post-filter. -/
theorem eq_includes_postfilter_amended (hav : Frac → Frac → Frac → Frac → Frac) (S : Store)
    (cfg : DbConfig) (field : Bytes) (v : JValue) (t : DataType) :
    (∀ ds d, execute_ast_query hav S (.eq field v t) none none none cfg = .ok ds → d ∈ ds →
      evaluate_condition_on_doc d field .eq v = true ∨
      ∃ pk ∈ fetch_keys_hash_index S field v, get_key S pk = .ok d) ∧
    (∀ ds d, execute_ast_query hav S (.includes field v t) none none none cfg = .ok ds →
      d ∈ ds → evaluate_condition_on_doc d field .includes v = true) := by
  constructor
  · intro ds d h hd
    simp only [execute_ast_query] at h
    by_cases hc : ((fetch_keys_hash_index S field v).isEmpty &&
        cfg.hash_indexed_fields.contains field) = true
    · rw [if_pos hc] at h
      cases hfd : fetch_documents S (get_all_keys S) with
      | error e => simp only [hfd, exBind_error] at h; cases h
      | ok docs =>
        simp only [hfd, pure_bind, exBind_ok] at h
        cases h
        have hdm := mem_of_mem_page _ d hd
        exact Or.inl (List.mem_filter.mp hdm).2
    · rw [if_neg hc] at h
      cases hfd : fetch_documents S (fetch_keys_hash_index S field v) with
      | error e => simp only [hfd, exBind_error] at h; cases h
      | ok docs =>
        simp only [hfd, pure_bind, exBind_ok] at h
        cases h
        have hdm := mem_of_mem_page _ d hd
        obtain ⟨pk, hpk, hget⟩ := exceptMapM_mem (get_key S) _ docs hfd d hdm
        exact Or.inr ⟨pk, hpk, hget⟩
  · intro ds d h hd
    simp only [execute_ast_query] at h
    cases hfd : fetch_documents S (fetch_keys_hash_index S field v) with
    | error e => simp only [hfd, exBind_error] at h; cases h
    | ok docs =>
      simp only [hfd, pure_bind, exBind_ok] at h
      cases h
      have hdm := mem_of_mem_page _ d hd
      exact (List.mem_filter.mp hdm).2

/-- Witness for C6 (amended): on the colon-collision store, the document
returned for `Eq(city, "Paris")` is traced to the unchecked prefix-scan key
`b`; `Includes(tags, "y")` on a two-document tag store returns only
documents whose `tags` array contains `"y"`. -/
theorem eq_includes_postfilter_amended_witness :
    (evaluate_condition_on_doc exDocParisColon (asciiBytes ("city")) .eq
        (.str (asciiBytes ("Paris"))) = true ∨
      ∃ pk ∈ fetch_keys_hash_index exStoreCity (asciiBytes ("city"))
        (.str (asciiBytes ("Paris"))), get_key exStoreCity pk = .ok exDocParisColon) ∧
    evaluate_condition_on_doc exDocParisColon (asciiBytes ("city")) .includes
      (.str (asciiBytes ("Paris:x"))) = true :=
  ⟨(eq_includes_postfilter_amended hav0 exStoreCity exCfgCity (asciiBytes ("city"))
      (.str (asciiBytes ("Paris"))) .string).1 [exDocParisColon] exDocParisColon
      (by decide) (by decide),
   (eq_includes_postfilter_amended hav0 exStoreCity exCfgCity (asciiBytes ("city"))
      (.str (asciiBytes ("Paris:x"))) .string).2 [exDocParisColon] exDocParisColon
      (by decide) (by decide)⟩

/-! ## C3 (amended): codec round-trip and per-tag order. -/

theorem beBytes_length : ∀ (w n : Nat), (beBytes w n).length = w
  | 0, _ => rfl
  | w + 1, n => by simp [beBytes, beBytes_length w]

theorem beVal_beBytes : ∀ (w n : Nat), n < 256 ^ w → beVal (beBytes w n) = n
  | 0, n, h => by
    have : n = 0 := by simpa using h
    simp [beBytes, beVal, this]
  | w + 1, n, h => by
    have hpos : 0 < 256 ^ w := pow_pos (by norm_num) w
    have hrec := beVal_beBytes w (n % 256 ^ w) (Nat.mod_lt _ hpos)
    simp only [beBytes, beVal, beBytes_length, hrec]
    rw [Nat.mul_comm]
    exact Nat.div_add_mod n (256 ^ w)

theorem lt_of_div_lt_div {m x y : Nat} (h : x / m < y / m) : x < y := by
  by_contra hc
  push_neg at hc
  exact absurd (Nat.div_le_div_right hc) (not_le.mpr h)

theorem beBytes_lt_iff : ∀ (w a b : Nat), a < 256 ^ w → b < 256 ^ w →
    (bytesLt (beBytes w a) (beBytes w b) = true ↔ a < b)
  | 0, a, b, ha, hb => by
    have ha0 : a = 0 := by simpa using ha
    have hb0 : b = 0 := by simpa using hb
    simp [beBytes, bytesLt, ha0, hb0]
  | w + 1, a, b, ha, hb => by
    have hpos : 0 < 256 ^ w := pow_pos (by norm_num) w
    simp only [beBytes, bytesLt]
    by_cases h1 : a / 256 ^ w < b / 256 ^ w
    · rw [if_pos h1]
      simp only [true_iff]
      exact lt_of_div_lt_div h1
    · rw [if_neg h1]
      by_cases h2 : b / 256 ^ w < a / 256 ^ w
      · rw [if_pos h2]
        exact iff_of_false (by simp) (not_lt.mpr (le_of_lt (lt_of_div_lt_div h2)))
      · rw [if_neg h2]
        have heq : a / 256 ^ w = b / 256 ^ w := Nat.le_antisymm (not_lt.mp h2) (not_lt.mp h1)
        rw [beBytes_lt_iff w (a % 256 ^ w) (b % 256 ^ w) (Nat.mod_lt _ hpos) (Nat.mod_lt _ hpos)]
        have ea : 256 ^ w * (a / 256 ^ w) + a % 256 ^ w = a := Nat.div_add_mod a (256 ^ w)
        have eb : 256 ^ w * (b / 256 ^ w) + b % 256 ^ w = b := Nat.div_add_mod b (256 ^ w)
        constructor
        · intro hmod
          rw [← ea, ← eb, heq]
          exact Nat.add_lt_add_left hmod _
        · intro hab
          by_contra hc
          push_neg at hc
          rw [← ea, ← eb, heq] at hab
          exact absurd (Nat.add_le_add_left hc _) (not_le.mpr hab)

theorem bytesLt_cons_same (t : Nat) (x y : Bytes) :
    bytesLt (t :: x) (t :: y) = bytesLt x y := by
  simp [bytesLt]

theorem take_beBytes_8 (n : Nat) : (beBytes 8 n).take 8 = beBytes 8 n := by
  conv_lhs => rw [← beBytes_length 8 n]
  exact List.take_length _

theorem decode_tag1 (n : Nat) (h : n < 2 ^ 64) :
    decode_sorted_value (1 :: beBytes 8 n) =
      .ok (.num (.int (if n < 2 ^ 63 then (n : Int) else (n : Int) - 2 ^ 64))) := by
  have h256 : (256 : Nat) ^ 8 = 2 ^ 64 := by norm_num
  simp only [decode_sorted_value]
  rw [beBytes_length, take_beBytes_8, beVal_beBytes 8 n (by omega)]
  norm_num

theorem decode_tag2 (u : Nat) (h : u < 2 ^ 64) :
    decode_sorted_value (2 :: beBytes 8 u) =
      .ok (.num (if u < 2 ^ 63 then .int u else .big u)) := by
  have h256 : (256 : Nat) ^ 8 = 2 ^ 64 := by norm_num
  simp only [decode_sorted_value]
  rw [beBytes_length, take_beBytes_8, beVal_beBytes 8 u (by omega)]
  norm_num

theorem bytesCmp_self : ∀ (s : Bytes), bytesCmp s s = .eq
  | [] => rfl
  | a :: as => by simp [bytesCmp, bytesCmp_self as]

theorem hexDigit_lt_iff (d1 d2 : Nat) (h1 : d1 < 16) (h2 : d2 < 16) :
    (hexDigit d1 < hexDigit d2 ↔ d1 < d2) := by
  unfold hexDigit
  split_ifs <;> omega

theorem hexEncode_lt : ∀ (a b : Bytes), (∀ x ∈ a, x < 256) → (∀ x ∈ b, x < 256) →
    bytesLt (hexEncode a) (hexEncode b) = bytesLt a b
  | [], [], _, _ => rfl
  | [], _ :: _, _, _ => rfl
  | _ :: _, [], _, _ => rfl
  | x :: xs, y :: ys, ha, hb => by
    have hx := ha x (List.mem_cons_self _ _)
    have hy := hb y (List.mem_cons_self _ _)
    have hxq : x / 16 < 16 := by omega
    have hyq : y / 16 < 16 := by omega
    have hxr : x % 16 < 16 := by omega
    have hyr : y % 16 < 16 := by omega
    have hrec := hexEncode_lt xs ys (fun z hz => ha z (List.mem_cons_of_mem _ hz))
      (fun z hz => hb z (List.mem_cons_of_mem _ hz))
    simp only [hexEncode, bytesLt]
    by_cases h1 : x / 16 < y / 16
    · rw [if_pos ((hexDigit_lt_iff _ _ hxq hyq).mpr h1)]
      have hxy : x < y := lt_of_div_lt_div h1
      rw [if_pos hxy]
    · rw [if_neg (fun hc => h1 ((hexDigit_lt_iff _ _ hxq hyq).mp hc))]
      by_cases h2 : y / 16 < x / 16
      · rw [if_pos ((hexDigit_lt_iff _ _ hyq hxq).mpr h2)]
        have hyx : y < x := lt_of_div_lt_div h2
        rw [if_neg (by omega), if_pos hyx]
      · rw [if_neg (fun hc => h2 ((hexDigit_lt_iff _ _ hyq hxq).mp hc))]
        have heq : x / 16 = y / 16 := Nat.le_antisymm (not_lt.mp h2) (not_lt.mp h1)
        by_cases h3 : x % 16 < y % 16
        · rw [if_pos ((hexDigit_lt_iff _ _ hxr hyr).mpr h3)]
          have hxy : x < y := by omega
          rw [if_pos hxy]
        · rw [if_neg (fun hc => h3 ((hexDigit_lt_iff _ _ hxr hyr).mp hc))]
          by_cases h4 : y % 16 < x % 16
          · rw [if_pos ((hexDigit_lt_iff _ _ hyr hxr).mpr h4)]
            have hyx : y < x := by omega
            rw [if_neg (by omega), if_pos hyx]
          · rw [if_neg (fun hc => h4 ((hexDigit_lt_iff _ _ hyr hxr).mp hc))]
            rw [if_neg (by omega), if_neg (by omega), hrec]

/-- C3 (amended).  The round-trip holds: for every scalar the codec models
(signed 64-bit integers, unsigned 64-bit integers above `i64::MAX`, UTF-8
strings, booleans), `decode(encode(s))` returns `s` itself, which compares
equal to `s` under `compare_values`.  Byte-lexicographic order of the
encodings (and of their hex fragments, since hex encoding preserves byte
order) agrees with the natural order for the unsigned, string and boolean
tags, and for the signed tag restricted to non-negative values; for negative
signed values the order is violated (see the counterexample; the `f64` tag,
whose big-endian IEEE bits likewise invert order across signs, is outside
this floating-point-free model). -/
theorem codec_roundtrip_and_order_amended :
    (∀ i : Int, -(2 ^ 63) ≤ i → i < 2 ^ 63 →
      (encode_sorted_value (.num (.int i))).bind decode_sorted_value = .ok (.num (.int i)) ∧
      compare_values (.num (.int i)) (.num (.int i)) = some .eq) ∧
    (∀ u : Nat, 2 ^ 63 ≤ u → u < 2 ^ 64 →
      (encode_sorted_value (.num (.big u))).bind decode_sorted_value = .ok (.num (.big u)) ∧
      compare_values (.num (.big u)) (.num (.big u)) = some .eq) ∧
    (∀ s : Bytes, isValidUtf8 s = true →
      (encode_sorted_value (.str s)).bind decode_sorted_value = .ok (.str s) ∧
      compare_values (.str s) (.str s) = some .eq) ∧
    (∀ b : Bool,
      (encode_sorted_value (.bool b)).bind decode_sorted_value = .ok (.bool b) ∧
      compare_values (.bool b) (.bool b) = some .eq) ∧
    (∀ i j : Int, 0 ≤ i → i < 2 ^ 63 → 0 ≤ j → j < 2 ^ 63 → ∀ bi bj,
      encode_sorted_value (.num (.int i)) = .ok bi →
      encode_sorted_value (.num (.int j)) = .ok bj →
      (bytesLt bi bj = true ↔ i < j)) ∧
    (∀ u1 u2 : Nat, u1 < 2 ^ 64 → u2 < 2 ^ 64 → ∀ b1 b2,
      encode_sorted_value (.num (.big u1)) = .ok b1 →
      encode_sorted_value (.num (.big u2)) = .ok b2 →
      (bytesLt b1 b2 = true ↔ u1 < u2)) ∧
    (∀ s1 s2 b1 b2, encode_sorted_value (.str s1) = .ok b1 →
      encode_sorted_value (.str s2) = .ok b2 →
      bytesLt b1 b2 = bytesLt s1 s2) ∧
    (∀ x1 x2 : Bool, ∀ b1 b2, encode_sorted_value (.bool x1) = .ok b1 →
      encode_sorted_value (.bool x2) = .ok b2 →
      (bytesLt b1 b2 = true ↔ x1 = false ∧ x2 = true)) ∧
    (∀ a b : Bytes, (∀ x ∈ a, x < 256) → (∀ x ∈ b, x < 256) →
      bytesLt (hexEncode a) (hexEncode b) = bytesLt a b) := by
  have h256 : (256 : Nat) ^ 8 = 2 ^ 64 := by norm_num
  refine ⟨?_, ?_, ?_, ?_, ?_, ?_, ?_, ?_, hexEncode_lt⟩
  · intro i hlo hhi
    constructor
    · simp only [encode_sorted_value, Except.bind]
      rw [decode_tag1 _ (by omega)]
      rcases le_or_lt 0 i with hpos | hneg
      · have hn : (i % ((2 ^ 64 : Nat) : Int)).toNat = i.toNat := by omega
        have hlt : i.toNat < 2 ^ 63 := by omega
        rw [hn, if_pos hlt]
        have : ((i.toNat : Nat) : Int) = i := by omega
        rw [this]
      · have hn : (i % ((2 ^ 64 : Nat) : Int)).toNat = (i + 2 ^ 64).toNat := by omega
        have hge : ¬((i + 2 ^ 64).toNat < 2 ^ 63) := by omega
        rw [hn, if_neg hge]
        have : (((i + 2 ^ 64).toNat : Nat) : Int) - 2 ^ 64 = i := by omega
        rw [this]
    · simp [compare_values, JNum.val, compare, compareOfLessAndEq]
  · intro u hlo hhi
    constructor
    · simp only [encode_sorted_value, Except.bind]
      rw [decode_tag2 _ hhi, if_neg (by omega)]
    · simp [compare_values, JNum.val, compare, compareOfLessAndEq]
  · intro s hs
    constructor
    · simp [encode_sorted_value, Except.bind, decode_sorted_value, hs]
    · simp [compare_values, bytesCmp_self]
  · intro b
    constructor
    · cases b <;> decide
    · cases b <;> decide
  · intro i j hi0 hi hj0 hj bi bj hbi hbj
    simp only [encode_sorted_value] at hbi hbj
    cases hbi
    cases hbj
    have hni : (i % ((2 ^ 64 : Nat) : Int)).toNat = i.toNat := by omega
    have hnj : (j % ((2 ^ 64 : Nat) : Int)).toNat = j.toNat := by omega
    rw [hni, hnj, bytesLt_cons_same,
      beBytes_lt_iff 8 i.toNat j.toNat (by omega) (by omega)]
    omega
  · intro u1 u2 h1 h2 b1 b2 hb1 hb2
    simp only [encode_sorted_value] at hb1 hb2
    cases hb1
    cases hb2
    rw [bytesLt_cons_same, beBytes_lt_iff 8 u1 u2 (by omega) (by omega)]
  · intro s1 s2 b1 b2 hb1 hb2
    simp only [encode_sorted_value] at hb1 hb2
    cases hb1
    cases hb2
    exact bytesLt_cons_same 4 s1 s2
  · intro x1 x2 b1 b2 hb1 hb2
    simp only [encode_sorted_value] at hb1 hb2
    cases hb1
    cases hb2
    cases x1 <;> cases x2 <;> decide

/-- Witness for C3 (amended) at concrete scalars: round-trip of `-5` and of
the string `"ab"`, and order agreement of the encodings of `3` and `7`. -/
theorem codec_roundtrip_and_order_amended_witness :
    ((encode_sorted_value (.num (.int (-5)))).bind decode_sorted_value =
        .ok (.num (.int (-5))) ∧
      compare_values (.num (.int (-5))) (.num (.int (-5))) = some .eq) ∧
    ((encode_sorted_value (.str (asciiBytes ("ab")))).bind decode_sorted_value =
        .ok (.str (asciiBytes ("ab"))) ∧
      compare_values (.str (asciiBytes ("ab"))) (.str (asciiBytes ("ab"))) = some .eq) ∧
    (bytesLt (1 :: beBytes 8 3) (1 :: beBytes 8 7) = true ↔ (3 : Int) < 7) :=
  ⟨codec_roundtrip_and_order_amended.1 (-5) (by decide) (by decide),
   codec_roundtrip_and_order_amended.2.2.1 (asciiBytes ("ab")) (by decide),
   codec_roundtrip_and_order_amended.2.2.2.2.1 3 7 (by decide) (by decide) (by decide)
     (by decide) (1 :: beBytes 8 3) (1 :: beBytes 8 7) (by decide) (by decide)⟩

end Commando
